import Mathlib


/-!
Verification development for the omniporton tool-call extraction and
orchestration core.

The definitions below are a shallow embedding of the TypeScript source:

* `src/src/extractor/streaming/toolCallParser.ts` — payload decoder
  (`parseToolCallPayload`, `tryParseJson`, `parseXml`,
  `stripMarkdownCodeBlock`);
* `src/extractor/streaming/streamingToolCallBuffer.ts`
  (`StreamingToolCallBuffer.push` / `getVisibleContent`);
* `src/src/chat/toolCallHandler.ts` (`handleToolCallFromModelOutput`) and
  the legacy `LegacyChatSession.chat` segment loop;
* `ChatSession` (`processSegments`, `executeToolCalls`, `agenticChat`).

Strings are modelled as `String` / `List Char`; JavaScript regular-expression
scans are modelled by explicit index scanning with the same leftmost / lazy
match semantics; asynchronous calls and thrown exceptions are modelled with
`Except`; mutable session state is passed explicitly.  The two external
parsing dependencies (the built-in `JSON.parse` and the js-yaml `load`) are
not code of this repository; every definition that needs them takes them as
an explicit `ExtParsers` argument, and concrete modelled instances
(`jsonParseModel`, `yamlModel`) are supplied only for concrete evaluations.
-/

/-- JavaScript value produced by parsing a payload (the subset needed here:
the result shape of `JSON.parse` / `yaml.load` / the minimal XML decoder).
Numbers are modelled as integers; fractional and exponent forms do not occur
in any input considered in this development. -/
inductive JVal where
  | null : JVal
  | bool (b : Bool) : JVal
  | num (n : Int) : JVal
  | str (s : String) : JVal
  | arr (items : List JVal) : JVal
  | obj (fields : List (String × JVal)) : JVal

/-- Left and right curly-brace characters (kept out of string literals). -/
def lbrace : Char := Char.ofNat 123

/-- Right curly brace. -/
def rbrace : Char := Char.ofNat 125

/-- Backtick character, used by markdown code fences. -/
def backquote : Char := Char.ofNat 96

/-- Whitespace skipping as done by `JSON.parse` between tokens. -/
def skipWs : List Char → List Char
  | [] => []
  | c :: cs => if c = ' ' ∨ c = '\t' ∨ c = '\n' ∨ c = '\r' then skipWs cs else c :: cs

/-- Parse the body of a JSON string literal (after the opening quote),
returning the decoded characters and the remainder after the closing quote.
The common escapes are supported; `\uXXXX` escapes are not modelled (none of
the payloads considered here contain them). -/
def parseJStringBody : Nat → List Char → Option (List Char × List Char)
  | 0, _ => none
  | _, [] => none
  | fuel + 1, c :: cs =>
    if c = '\"' then some ([], cs)
    else if c = '\\' then
      match cs with
      | [] => none
      | e :: cs2 =>
        let dec : Option Char :=
          if e = '\"' then some '\"'
          else if e = '\\' then some '\\'
          else if e = '/' then some '/'
          else if e = 'n' then some '\n'
          else if e = 't' then some '\t'
          else if e = 'r' then some '\r'
          else if e = 'b' then some (Char.ofNat 8)
          else if e = 'f' then some (Char.ofNat 12)
          else none
        match dec with
        | none => none
        | some d =>
          match parseJStringBody fuel cs2 with
          | some (body, rest) => some (d :: body, rest)
          | none => none
    else
      match parseJStringBody fuel cs with
      | some (body, rest) => some (c :: body, rest)
      | none => none

/-- Parse a JSON integer (optional minus sign, one or more digits). -/
def parseJInt (s : List Char) : Option (Int × List Char) :=
  let (neg, s1) : Bool × List Char :=
    match s with
    | c :: cs => if c = '-' then (true, cs) else (false, s)
    | [] => (false, s)
  let digits := s1.takeWhile Char.isDigit
  let rest := s1.dropWhile Char.isDigit
  if digits.isEmpty then none
  else
    let n : Nat := digits.foldl (fun acc c => acc * 10 + (c.toNat - 48)) 0
    some (if neg then -(n : Int) else (n : Int), rest)

mutual

/-- Recursive-descent model of `JSON.parse` on a character list: parse one
JSON value, returning it with the unconsumed remainder. -/
def parseJVal : Nat → List Char → Option (JVal × List Char)
  | 0, _ => none
  | fuel + 1, s =>
    match skipWs s with
    | [] => none
    | c :: cs =>
      if c = 'n' then
        match c :: cs with
        | 'n' :: 'u' :: 'l' :: 'l' :: rest => some (JVal.null, rest)
        | _ => none
      else if c = 't' then
        match c :: cs with
        | 't' :: 'r' :: 'u' :: 'e' :: rest => some (JVal.bool true, rest)
        | _ => none
      else if c = 'f' then
        match c :: cs with
        | 'f' :: 'a' :: 'l' :: 's' :: 'e' :: rest => some (JVal.bool false, rest)
        | _ => none
      else if c = '\"' then
        match parseJStringBody fuel cs with
        | some (body, rest) => some (JVal.str (String.mk body), rest)
        | none => none
      else if c = '-' ∨ c.isDigit then
        match parseJInt (c :: cs) with
        | some (n, rest) => some (JVal.num n, rest)
        | none => none
      else if c = '[' then
        match skipWs cs with
        | ']' :: rest => some (JVal.arr [], rest)
        | _ =>
          match parseJItems fuel cs with
          | some (items, rest) => some (JVal.arr items, rest)
          | none => none
      else if c = lbrace then
        match skipWs cs with
        | d :: rest =>
          if d = rbrace then some (JVal.obj [], rest)
          else
            match parseJFields fuel cs with
            | some (fields, rest2) => some (JVal.obj fields, rest2)
            | none => none
        | [] => none
      else none

/-- Parse one-or-more comma-separated JSON array items followed by a
closing bracket. -/
def parseJItems : Nat → List Char → Option (List JVal × List Char)
  | 0, _ => none
  | fuel + 1, s =>
    match parseJVal fuel s with
    | none => none
    | some (v, rest) =>
      match skipWs rest with
      | ',' :: rest2 =>
        match parseJItems fuel rest2 with
        | some (items, rest3) => some (v :: items, rest3)
        | none => none
      | ']' :: rest2 => some ([v], rest2)
      | _ => none

/-- Parse one-or-more comma-separated JSON object members followed by a
closing brace. -/
def parseJFields : Nat → List Char → Option (List (String × JVal) × List Char)
  | 0, _ => none
  | fuel + 1, s =>
    match skipWs s with
    | '\"' :: cs =>
      match parseJStringBody fuel cs with
      | none => none
      | some (key, rest) =>
        match skipWs rest with
        | ':' :: rest2 =>
          match parseJVal fuel rest2 with
          | none => none
          | some (v, rest3) =>
            match skipWs rest3 with
            | ',' :: rest4 =>
              match parseJFields fuel rest4 with
              | some (fields, rest5) => some ((String.mk key, v) :: fields, rest5)
              | none => none
            | d :: rest4 =>
              if d = rbrace then some ([(String.mk key, v)], rest4) else none
            | [] => none
        | _ => none
    | _ => none

end

/-- Modelled `JSON.parse`: parses a complete JSON document (whitespace
permitted around it), failing on trailing garbage, exactly as the built-in
throws a `SyntaxError`.  Supported value forms are listed at `parseJVal`. -/
def jsonParseModel (s : String) : Option JVal :=
  match parseJVal (4 * s.data.length + 8) s.data with
  | some (v, rest) => if skipWs rest = [] then some v else none
  | none => none

/-- Modelled from the external js-yaml dependency (not code of this
repository): `yaml.load` succeeds on plain scalars and most well-formed
documents (success is all the control flow below observes), and throws on an
unterminated flow collection, e.g. an input beginning with an unmatched
`[` or curly brace.  Only the success/failure split on the concrete inputs
exercised in this file is relied upon. -/
def yamlModel (s : String) : Option JVal :=
  match s.data with
  | [] => some JVal.null
  | c :: _ => if c = '[' ∨ c = lbrace then none else some (JVal.str s)

/-- The two external parsing functions used by the payload decoder: the
JavaScript built-in `JSON.parse` and js-yaml's `load`.  Both are external to
the repository, so every definition that uses them is parameterised by this
structure; `refExtParsers` below packages the concrete models. -/
structure ExtParsers where
  jsonParse : String → Option JVal
  yamlLoad : String → Option JVal

/-- Concrete instance of the external parsers used for closed evaluations. -/
def refExtParsers : ExtParsers :=
  { jsonParse := jsonParseModel, yamlLoad := yamlModel }

/-- Whitespace in the sense of `String.prototype.trim` (the ASCII cases;
the exotic Unicode space characters do not occur in the inputs here). -/
def isJsWhitespace (c : Char) : Bool :=
  c = ' ' ∨ c = '\t' ∨ c = '\n' ∨ c = '\r' ∨ c = Char.ofNat 11 ∨ c = Char.ofNat 12

/-- Model of `String.prototype.trim`: strip leading and trailing
whitespace. -/
def jsTrim (s : String) : String :=
  String.mk (((s.data.dropWhile isJsWhitespace).reverse.dropWhile isJsWhitespace).reverse)

/-- Word character as matched by the regex class in the fence pattern. -/
def isWordChar (c : Char) : Bool := c.isAlphanum || c = '_'

/-- Match the anchored fence regex of `stripMarkdownCodeBlock` against an
(already trimmed) character list: three backticks, an optional language word,
a newline, the body, and a final newline plus three backticks at the very
end.  Returns the captured body when the whole string matches. -/
def stripFence (t : List Char) : Option (List Char) :=
  match t with
  | c1 :: c2 :: c3 :: rest =>
    if c1 = backquote ∧ c2 = backquote ∧ c3 = backquote then
      match rest.dropWhile isWordChar with
      | '\n' :: body =>
        if ['\n', backquote, backquote, backquote].isSuffixOf body ∧ 4 ≤ body.length then
          some (body.take (body.length - 4))
        else none
      | _ => none
    else none
  | _ => none

/-- Embeds `stripMarkdownCodeBlock` from `toolCallParser.ts`: strips a single
enclosing markdown code fence, returning the trimmed inner content, or the
trimmed input when no fence matches. -/
def stripMarkdownCodeBlock (text : String) : String :=
  let t := jsTrim text
  match stripFence t.data with
  | some inner => jsTrim (String.mk inner)
  | none => t

/-- Index of the first occurrence of a character, if any. -/
def idxOfChar (c : Char) : List Char → Option Nat
  | [] => none
  | x :: xs => if x = c then some 0 else (idxOfChar c xs).map (· + 1)

/-- Index of the last occurrence of a character, if any. -/
def lastIdxOfChar (c : Char) (s : List Char) : Option Nat :=
  (idxOfChar c s.reverse).map (fun k => s.length - 1 - k)

/-- The greedy capture of the regex that extracts a brace-delimited span:
from the first left brace through the last right brace, provided the latter
comes after the former. -/
def extractBraceSpan (s : List Char) : Option (List Char) :=
  match idxOfChar lbrace s, lastIdxOfChar rbrace s with
  | some i, some j => if i < j then some ((s.drop i).take (j - i + 1)) else none
  | _, _ => none

/-- Embeds `tryParseJson` from `toolCallParser.ts`: direct parse first; on
failure, extract the brace-delimited substring and parse that.  The second
parse is not wrapped in a try in the source, so its `SyntaxError` propagates;
both failure modes are modelled as `Except.error` with the corresponding
message. -/
def tryParseJson (P : ExtParsers) (s : String) : Except String JVal :=
  match P.jsonParse s with
  | some v => .ok v
  | none =>
    match extractBraceSpan s.data with
    | some sub =>
      match P.jsonParse (String.mk sub) with
      | some v => .ok v
      | none => .error ("SyntaxError: Unexpected token in JSON")
    | none => .error ("Malformed JSON in tool/function call payload.")

/-- Leftmost index at which any of the given literal patterns matches, the
semantics of scanning a string with an alternation of literal regexes
(`exec`/`match` with no prior `lastIndex`).  `none` when no pattern occurs. -/
def firstIdxAny (pats : List (List Char)) : List Char → Option Nat
  | [] => if pats.any (fun p => p.isPrefixOf ([] : List Char)) then some 0 else none
  | c :: rest =>
    if pats.any (fun p => p.isPrefixOf (c :: rest)) then some 0
    else (firstIdxAny pats rest).map (· + 1)

/-- Leftmost lazy match of the pattern `op`, then anything, then `cl` (the
shape of every block regex in the source): returns the match start, the
captured inner text, and the index just past the closing tag. -/
def findBlockG (op cl s : List Char) : Option (Nat × List Char × Nat) :=
  match firstIdxAny [op] s with
  | none => none
  | some i =>
    let rest := s.drop (i + op.length)
    match firstIdxAny [cl] rest with
    | none => none
    | some k => some (i, rest.take k, i + op.length + k + cl.length)

/-- Embeds `parseXml` from `toolCallParser.ts`: extracts the first
`<name>` and `<arguments>` sub-elements; the arguments body is re-attempted
as JSON, then YAML, then kept as a raw string. -/
def parseXml (P : ExtParsers) (s : String) : Except String JVal :=
  match findBlockG ("<name>").data ("</name>").data s.data with
  | none => .error ("No <name> in XML payload.")
  | some (_, nameInner, _) =>
    let argsStr : String :=
      match findBlockG ("<arguments>").data ("</arguments>").data s.data with
      | some (_, argsInner, _) => jsTrim (String.mk argsInner)
      | none => String.mk [lbrace, rbrace]
    let args : JVal :=
      match P.jsonParse argsStr with
      | some v => v
      | none =>
        match P.yamlLoad argsStr with
        | some v => v
        | none => JVal.str argsStr
    .ok (JVal.obj [("name", JVal.str (jsTrim (String.mk nameInner))),
                   ("arguments", args)])

/-- Payload serialization format selector of the decoder. -/
inductive PayloadFormat where
  | json | xml | yaml | auto
deriving DecidableEq, Repr

/-- Embeds `parseToolCallPayload` from `toolCallParser.ts`: trims and strips
a markdown fence, then decodes according to the format; `auto` tries JSON,
then YAML, then XML, in that order, and fails with one aggregate error when
all three fail.  Thrown exceptions are modelled as `Except.error`. -/
def parseToolCallPayload (P : ExtParsers) (s : String) (fmt : PayloadFormat) : Except String JVal :=
  let str := stripMarkdownCodeBlock (jsTrim s)
  match fmt with
  | .json => tryParseJson P str
  | .yaml =>
    match P.yamlLoad str with
    | some v => .ok v
    | none => .error ("YAMLException")
  | .xml => parseXml P str
  | .auto =>
    match tryParseJson P str with
    | .ok v => .ok v
    | .error _ =>
      match P.yamlLoad str with
      | some v => .ok v
      | none =>
        match parseXml P str with
        | .ok v => .ok v
        | .error _ => .error ("Could not parse tool/function call payload as JSON, YAML, or XML.")

/-- Specification-side description of a try-in-order decode: the result of
the first attempt in the list that succeeds, or the aggregate error when
every attempt fails.  Used to state the `auto` contract of the decoder. -/
def firstSuccessfulAttempt (aggregateError : String) : List (Except String JVal) → Except String JVal
  | [] => .error aggregateError
  | .ok v :: _ => .ok v
  | .error _ :: rest => firstSuccessfulAttempt aggregateError rest

/-- Open tag of the `function_calling` dialect. -/
def opFC : List Char := ("<function_call>").data

/-- Close tag of the `function_calling` dialect. -/
def clFC : List Char := ("</function_call>").data

/-- Open tag of the `tool_use` dialect. -/
def opTU : List Char := ("<tool_use>").data

/-- Close tag of the `tool_use` dialect. -/
def clTU : List Char := ("</tool_use>").data

/-- Open tag of the `tool` dialect. -/
def opTC : List Char := ("<tool_call>").data

/-- Close tag of the `tool` dialect. -/
def clTC : List Char := ("</tool_call>").data

/-- Protocol selector of the streaming buffer. -/
inductive Protocol where
  | function_calling | tool_use | tool | auto
deriving DecidableEq, Repr

/-- The repeated `exec` loop of `push` for one block pattern, written with
an explicit fuel bound so that it evaluates by kernel reduction; each step
consumes at least one character (see `findBlockG_bounds`), so
`s.length + 1` fuel is always sufficient — `scanBlocks_eq` below states the
resulting fuel-free unfolding. -/
def scanBlocksF (op cl : List Char) : Nat → List Char → List (List Char)
  | 0, _ => []
  | fuel + 1, s =>
    match findBlockG op cl s with
    | none => []
    | some (_, inner, e) => inner :: scanBlocksF op cl fuel (s.drop e)

/-- Collect the captured inner text of every non-overlapping complete block
of the pattern, left to right, resuming each scan just past the previous
match. -/
def scanBlocks (op cl s : List Char) : List (List Char) :=
  scanBlocksF op cl (s.length + 1) s

/-- One global `String.replace(pattern, '')` pass with fuel, as for
`scanBlocksF`. -/
def removeBlocksF (op cl : List Char) : Nat → List Char → List Char
  | 0, s => s
  | fuel + 1, s =>
    match findBlockG op cl s with
    | none => s
    | some (i, _, e) => s.take i ++ removeBlocksF op cl fuel (s.drop e)

/-- Remove every non-overlapping complete block of the pattern, scanning
left to right on the original string. -/
def removeBlocks (op cl s : List Char) : List Char :=
  removeBlocksF op cl (s.length + 1) s

/-- The per-protocol pattern table of `StreamingToolCallBuffer.push`,
applied to the buffer: the captured payloads of every pattern of the
protocol, in the order the source's nested loops visit them. -/
def scanProtocol (proto : Protocol) (b : List Char) : List (List Char) :=
  match proto with
  | .function_calling => scanBlocks opFC clFC b
  | .tool_use => scanBlocks opTU clTU b
  | .tool => scanBlocks opTC clTC b ++ scanBlocks opFC clFC b
  | .auto =>
    scanBlocks opFC clFC b ++ scanBlocks opTU clTU b ++ scanBlocks opTC clTC b

/-- Result of one `push`: the new raw buffer, and the detected calls
(`none` models the `null` return). -/
structure PushResult where
  buffer : List Char
  calls : Option (List JVal)

/-- Embeds `StreamingToolCallBuffer.push`: append the chunk, scan every
pattern of the protocol for complete blocks, parse each captured payload
(parse failures are ignored); when at least one payload parsed, remove every
complete block of all three dialects from the buffer and return the parsed
calls, otherwise leave the buffer as accumulated and return `null`. -/
def pushImpl (P : ExtParsers) (proto : Protocol) (fmt : PayloadFormat)
    (buf chunk : List Char) : PushResult :=
  let b := buf ++ chunk
  let parsedCalls := (scanProtocol proto b).filterMap
    (fun inner => (parseToolCallPayload P (String.mk inner) fmt).toOption)
  if parsedCalls.isEmpty then
    { buffer := b, calls := none }
  else
    let b1 := removeBlocks opFC clFC b
    let b2 := removeBlocks opTU clTU b1
    let b3 := removeBlocks opTC clTC b2
    { buffer := b3, calls := some parsedCalls }

/-- Embeds `StreamingToolCallBuffer.getVisibleContent`: the prefix of the
raw buffer before the leftmost occurrence of any of the three complete open
tags; the whole buffer when none occurs. -/
def getVisibleContent (buf : List Char) : List Char :=
  match firstIdxAny [opFC, opTU, opTC] buf with
  | none => buf
  | some i => buf.take i

/-- Fold a sequence of pushes over one buffer instance, returning the final
raw buffer and the per-push results. -/
def runPushes (P : ExtParsers) (proto : Protocol) (fmt : PayloadFormat) :
    List Char → List (List Char) → List Char × List (Option (List JVal))
  | buf, [] => (buf, [])
  | buf, c :: cs =>
    let r := pushImpl P proto fmt buf c
    let rest := runPushes P proto fmt r.buffer cs
    (rest.1, r.calls :: rest.2)

/-- Quote a string as a JSON string literal (the escapes needed for
`JSON.stringify` on the values occurring here). -/
def jsonQuote (s : String) : String :=
  let esc := s.data.foldr
    (fun c acc =>
      if c = '\"' then '\\' :: '\"' :: acc
      else if c = '\\' then '\\' :: '\\' :: acc
      else if c = '\n' then '\\' :: 'n' :: acc
      else if c = '\t' then '\\' :: 't' :: acc
      else if c = '\r' then '\\' :: 'r' :: acc
      else c :: acc) []
  String.mk ('\"' :: esc ++ ['\"'])

mutual

/-- Model of `JSON.stringify` on the value shapes of this development. -/
def jsonStringify : JVal → String
  | .null => "null"
  | .bool true => "true"
  | .bool false => "false"
  | .num n => toString n
  | .str s => jsonQuote s
  | .arr items => "[" ++ jsonStringifyItems items ++ "]"
  | .obj fields => String.mk [lbrace] ++ jsonStringifyFields fields ++ String.mk [rbrace]

/-- Comma-separated serialization of array items. -/
def jsonStringifyItems : List JVal → String
  | [] => ""
  | [v] => jsonStringify v
  | v :: rest => jsonStringify v ++ "," ++ jsonStringifyItems rest

/-- Comma-separated serialization of object members. -/
def jsonStringifyFields : List (String × JVal) → String
  | [] => ""
  | [(k, v)] => jsonQuote k ++ ":" ++ jsonStringify v
  | (k, v) :: rest => jsonQuote k ++ ":" ++ jsonStringify v ++ "," ++ jsonStringifyFields rest

end

/-- The stringification applied to a handler result before it is placed in
a `tool` message: a string result is used as-is, anything else is
`JSON.stringify`ed. -/
def stringifyResult : JVal → String
  | .str s => s
  | v => jsonStringify v

/-- A conversation message (`ChatMessage` of `chat/types`), the variants
the embedded code appends. -/
inductive ChatMessage where
  | system (content : String)
  | user (content : String)
  | assistant (content : String)
  | tool (name : String) (content : String) (args : JVal)

/-- A tool/function call object as decoded from a payload, with the fields
the handler reads (`id`, `tool_call_id`, `name`, `arguments`).  Field values
that are not strings are not modelled (the handler would use them only as
opaque set members). -/
structure ParsedCall where
  id : Option String := none
  tool_call_id : Option String := none
  name : Option String := none
  arguments : Option JVal := none

/-- JavaScript truthiness for an optional string field (`undefined` and the
empty string are falsy). -/
def truthyStr : Option String → Option String
  | some s => if s = "" then none else some s
  | none => none

/-- The handler's `toolCall.id || toolCall.tool_call_id`. -/
def callIdOf (c : ParsedCall) : Option String :=
  match truthyStr c.id with
  | some s => some s
  | none => truthyStr c.tool_call_id

/-- JavaScript truthiness of a decoded value. -/
def jvTruthy : JVal → Bool
  | .null => false
  | .bool b => b
  | .num n => n ≠ 0
  | .str s => s ≠ ""
  | .arr _ => true
  | .obj _ => true

/-- The handler's `toolCall.arguments || {}`. -/
def argsOrEmpty (c : ParsedCall) : JVal :=
  match c.arguments with
  | some a => if jvTruthy a then a else JVal.obj []
  | none => JVal.obj []

/-- First binding of a key in a decoded object. -/
def jlookup (k : String) : List (String × JVal) → Option JVal
  | [] => none
  | (k2, v) :: rest => if k2 = k then some v else jlookup k rest

/-- Read a string-valued field of a decoded object (used for `id`,
`tool_call_id` and `name`). -/
def strField (k : String) (v : JVal) : Option String :=
  match v with
  | .obj fs =>
    match jlookup k fs with
    | some (.str s) => some s
    | _ => none
  | _ => none

/-- View a decoded payload as the call object the handler destructures. -/
def toParsedCall (v : JVal) : ParsedCall :=
  { id := strField ("id") v
    tool_call_id := strField ("tool_call_id") v
    name := strField ("name") v
    arguments := match v with | .obj fs => jlookup ("arguments") fs | _ => none }

/-- A registered tool (`ToolDefinition`): the zod `schema.parse`
validator/coercer and the asynchronous handler are modelled as
`Except`-valued functions (an `error` models a throw; the zod error string
stands for the joined issue messages). -/
structure ToolDefinition where
  name : String
  schema : JVal → Except String JVal
  handler : JVal → Except String JVal

/-- One per-call result entry of `handleToolCallFromModelOutput`
(`ToolCallResult`); the `raw` field of the source is reproduced as the
original call object or raw text. -/
inductive RawRef where
  | call (c : ParsedCall)
  | text (s : String)

/-- Outcome record pushed into the handler's `results` array. -/
structure ToolCallOutcome where
  id : Option String
  name : String
  args : JVal
  result : Option JVal
  error : Option String
  raw : RawRef

/-- State threaded through `handleToolCallFromModelOutput`: the
conversation messages appended via `addMessage`, the shared
`processedToolCallIds` set, the `results` array, and an instrumentation
trace of actual `tool.handler` invocations (name and validated args). -/
structure HandlerState where
  msgs : List ChatMessage
  seen : List String
  results : List ToolCallOutcome
  invoked : List (String × JVal)

/-- The body of the handler's `try`/`catch` for one call, after the
deduplication gate: name check, registry lookup, zod validation (its own
`catch` branch), handler invocation; every failure appends an `assistant`
message describing the error, success appends a `tool` message with the
stringified result. -/
def execCall (getTool : String → Option ToolDefinition) (st : HandlerState)
    (c : ParsedCall) (callId : Option String) : HandlerState :=
  match truthyStr c.name with
  | none =>
    let errMsg := "Function/tool call error: Error: No tool/function name specified."
    { st with msgs := st.msgs ++ [.assistant errMsg]
              results := st.results ++
                [⟨callId, "unknown", argsOrEmpty c, none, some errMsg, .call c⟩] }
  | some n =>
    match getTool n with
    | none =>
      let errMsg := "Function/tool call error: Error: Tool '" ++ n ++ "' not registered."
      { st with msgs := st.msgs ++ [.assistant errMsg]
                results := st.results ++
                  [⟨callId, n, argsOrEmpty c, none, some errMsg, .call c⟩] }
    | some tool =>
      match tool.schema (argsOrEmpty c) with
      | .error zmsg =>
        let errMsg := "Invalid arguments for tool '" ++ tool.name ++ "': " ++ zmsg
        { st with msgs := st.msgs ++ [.assistant errMsg]
                  results := st.results ++
                    [⟨callId, tool.name, argsOrEmpty c, none, some errMsg, .call c⟩] }
      | .ok parsedArgs =>
        match tool.handler parsedArgs with
        | .ok r =>
          { st with msgs := st.msgs ++ [.tool tool.name (stringifyResult r) parsedArgs]
                    results := st.results ++
                      [⟨callId, tool.name, parsedArgs, some r, none, .call c⟩]
                    invoked := st.invoked ++ [(tool.name, parsedArgs)] }
        | .error e =>
          let errMsg := "Function/tool call error: Error: " ++ e
          { st with msgs := st.msgs ++ [.assistant errMsg]
                    results := st.results ++
                      [⟨callId, n, argsOrEmpty c, none, some errMsg, .call c⟩]
                    invoked := st.invoked ++ [(tool.name, parsedArgs)] }

/-- One iteration of the handler's loop over detected calls: compute the
call id; a call whose id is already in the seen-set is skipped silently;
otherwise the id is added to the set (before any execution) and the call is
executed. -/
def handleOneCall (getTool : String → Option ToolDefinition) (st : HandlerState)
    (c : ParsedCall) : HandlerState :=
  match callIdOf c with
  | some i =>
    if st.seen.contains i then st
    else execCall getTool { st with seen := st.seen ++ [i] } c (some i)
  | none => execCall getTool st c none

/-- The handler's loop over all calls detected in one model output. -/
def handleParsedCalls (getTool : String → Option ToolDefinition)
    (st : HandlerState) (calls : List ParsedCall) : HandlerState :=
  calls.foldl (handleOneCall getTool) st

/-- Embeds `handleToolCallFromModelOutput`: push the whole model output
through a fresh streaming buffer; when calls are detected, run the loop over
them; otherwise append the entire raw output as one assistant message and
return the single `name: 'none'` result carrying the raw output. -/
def handleToolCallFromModelOutput (P : ExtParsers) (proto : Protocol)
    (fmt : PayloadFormat) (getTool : String → Option ToolDefinition)
    (st : HandlerState) (modelOutput : String) : HandlerState :=
  match (pushImpl P proto fmt [] modelOutput.data).calls with
  | some calls => handleParsedCalls getTool st (calls.map toParsedCall)
  | none =>
    { st with msgs := st.msgs ++ [.assistant modelOutput]
              results := st.results ++
                [⟨none, "none", JVal.obj [], some (JVal.str modelOutput), none,
                  .text modelOutput⟩] }

/-- A structured tool call as produced by an extractor (`ToolCall` of the
extractor interface), the shape `ChatSession.executeToolCalls` consumes. -/
structure SessionToolCall where
  id : Option String := none
  name : String
  arguments : JVal

/-- One entry of `ChatSession`'s `toolCallResults` log.  The source
additionally stamps a wall-clock `timestamp` and substitutes a
`call_<Date.now()>` placeholder for a missing id; real time is not
representable here, so the optional id is kept as-is. -/
structure SessionResult where
  id : Option String
  name : String
  arguments : JVal
  result : Option JVal
  error : Option String

/-- State of a `ChatSession`: conversation history plus the
`toolCallResults` log. -/
structure SessionState where
  msgs : List ChatMessage
  toolCallResults : List SessionResult

/-- The MCP service seen by `executeToolCalls`, modelled as an optional
execution function; `none` models an absent service (whose guard throw is
caught per call), and the per-call timeout race is folded into the
function's `Except` outcome (a timeout is `error "Tool call timeout"`). -/
def runService (svc : Option (String → JVal → Except String JVal))
    (name : String) (args : JVal) : Except String JVal :=
  match svc with
  | none => .error ("MCP service not available")
  | some f => f name args

/-- One iteration of `ChatSession.executeToolCalls`: on success append a
`tool` message with the stringified result; on any error append an
`assistant` message describing it.  Note there is no id-based
deduplication in this loop. -/
def execOneToolCall (svc : Option (String → JVal → Except String JVal))
    (st : SessionState) (c : SessionToolCall) : SessionState :=
  match runService svc c.name c.arguments with
  | .ok r =>
    { st with toolCallResults := st.toolCallResults ++
        [⟨c.id, c.name, c.arguments, some r, none⟩]
              msgs := st.msgs ++ [.tool c.name (stringifyResult r) c.arguments] }
  | .error m =>
    { st with toolCallResults := st.toolCallResults ++
        [⟨c.id, c.name, c.arguments, none, some m⟩]
              msgs := st.msgs ++ [.assistant ("Error executing " ++ c.name ++ ": " ++ m)] }

/-- Embeds `ChatSession.executeToolCalls`: strictly sequential execution in
list order. -/
def executeToolCalls (svc : Option (String → JVal → Except String JVal))
    (st : SessionState) (calls : List SessionToolCall) : SessionState :=
  calls.foldl (execOneToolCall svc) st

/-- One ordered unit of normalized output (`ExtractedSegment`). -/
inductive Seg where
  | content (text : String)
  | toolCall (call : SessionToolCall)

/-- The concatenation of the content segments, in order (the
`assistantContent` accumulator of `processSegments`). -/
def combinedContent (segs : List Seg) : String :=
  segs.foldl (fun acc s => match s with | .content t => acc ++ t | .toolCall _ => acc) ""

/-- The tool-call segments, in order. -/
def segToolCalls (segs : List Seg) : List SessionToolCall :=
  segs.filterMap (fun s => match s with | .toolCall c => some c | .content _ => none)

/-- Whether any segment is a tool call (the loop-termination test of
`agenticChat`). -/
def hasToolCallSeg (segs : List Seg) : Bool :=
  segs.any (fun s => match s with | .toolCall _ => true | .content _ => false)

/-- Embeds `ChatSession.processSegments`: collect content and calls, append
the combined content as one assistant message when it is non-blank (the
source tests `assistantContent.trim()`), then execute the calls in order
when there are any and the MCP service is present; returns the new state and
the combined content. -/
def processSegments (svc : Option (String → JVal → Except String JVal))
    (st : SessionState) (segs : List Seg) : SessionState × String :=
  let assistantContent := combinedContent segs
  let toolCalls := segToolCalls segs
  let st1 :=
    if jsTrim assistantContent ≠ "" then
      { st with msgs := st.msgs ++ [.assistant assistantContent] }
    else st
  let st2 :=
    if toolCalls.isEmpty = false ∧ svc.isSome then executeToolCalls svc st1 toolCalls
    else st1
  (st2, assistantContent)

/-- One non-agentic round of `ChatSession.chat`: the user message is
appended to history, the provider output is normalized into segments, and
`processSegments` runs. -/
def chatRound (svc : Option (String → JVal → Except String JVal))
    (st : SessionState) (userMessage : String) (segs : List Seg) :
    SessionState × String :=
  processSegments svc { st with msgs := st.msgs ++ [.user userMessage] } segs

/-- The `maxAgenticIterations || 5` of the source: JavaScript `||` treats a
configured value of `0` as falsy and substitutes the default `5`. -/
def effectiveMaxIterations (n : Nat) : Nat := if n = 0 then 5 else n

/-- The `while` loop of `ChatSession.agenticChat`, with the per-round
provider response and extraction abstracted as an oracle from round number
to segments, and fuel equal to the remaining iteration budget.  Returns the
final state, the returned `finalResponse`, and the number of model
invocations performed (one per loop entry). -/
def agenticLoop (oracle : Nat → List Seg)
    (svc : Option (String → JVal → Except String JVal))
    (st : SessionState) (round : Nat) : Nat → SessionState × String × Nat
  | 0 => (st, "", 0)
  | fuel + 1 =>
    let segs := oracle round
    let pr := processSegments svc st segs
    if hasToolCallSeg segs then
      let rest := agenticLoop oracle svc pr.1 (round + 1) fuel
      (rest.1, rest.2.1, rest.2.2 + 1)
    else (pr.1, pr.2, 1)

/-- Embeds `ChatSession.agenticChat`: run the loop from iteration zero with
the configured cap; `finalResponse` starts as the empty string and is
assigned only by a round with no tool calls. -/
def agenticChat (oracle : Nat → List Seg)
    (svc : Option (String → JVal → Except String JVal))
    (st : SessionState) (maxIterations : Nat) : SessionState × String × Nat :=
  agenticLoop oracle svc st 0 (effectiveMaxIterations maxIterations)

/-- A segment of the legacy session's `extractSegments` (content text or a
decoded call object). -/
inductive LegacySeg where
  | content (text : String)
  | toolCall (call : ParsedCall)

/-- State of a `LegacyChatSession`: history plus `lastToolCallResults`. -/
structure LegacyState where
  msgs : List ChatMessage
  lastToolCallResults : List ToolCallOutcome

/-- The inline tool-call execution of `LegacyChatSession.chat` (also the
body of `processParsedToolCall`): any failure — missing name, unregistered
tool, schema rejection, handler throw — is caught by one `catch` that
appends a message with role `tool` carrying the error text. -/
def legacyExecCall (getTool : String → Option ToolDefinition)
    (st : LegacyState) (c : ParsedCall) : LegacyState :=
  let callId := callIdOf c
  let failName := match truthyStr c.name with | some n => n | none => "unknown"
  let fail := fun (m : String) =>
    let errMsg := "Function/tool call error: Error: " ++ m
    { st with msgs := st.msgs ++ [.tool failName errMsg (argsOrEmpty c)]
              lastToolCallResults := st.lastToolCallResults ++
                [⟨callId, failName, argsOrEmpty c, none, some errMsg, .call c⟩] }
  match truthyStr c.name with
  | none => fail ("No tool/function name specified.")
  | some n =>
    match getTool n with
    | none => fail ("Tool '" ++ n ++ "' not registered.")
    | some tool =>
      match tool.schema (argsOrEmpty c) with
      | .error zmsg => fail ("ZodError: " ++ zmsg)
      | .ok parsedArgs =>
        match tool.handler parsedArgs with
        | .ok r =>
          { st with msgs := st.msgs ++ [.tool tool.name (stringifyResult r) parsedArgs]
                    lastToolCallResults := st.lastToolCallResults ++
                      [⟨callId, tool.name, parsedArgs, some r, none, .call c⟩] }
        | .error e => fail e

/-- One step of the legacy `chat` segment loop, carrying
`(state, visibleText, contentBuffer)`: in combine mode content accumulates
in the buffer; otherwise non-blank content is appended immediately as an
assistant message; a tool-call segment executes inline. -/
def legacyStep (getTool : String → Option ToolDefinition) (combine : Bool)
    (acc : LegacyState × String × String) (seg : LegacySeg) :
    LegacyState × String × String :=
  match seg with
  | .content t =>
    if combine then (acc.1, acc.2.1, acc.2.2 ++ t)
    else if jsTrim t ≠ "" then
      ({ acc.1 with msgs := acc.1.msgs ++ [.assistant t] }, acc.2.1 ++ t, acc.2.2)
    else (acc.1, acc.2.1, acc.2.2)
  | .toolCall c => (legacyExecCall getTool acc.1 c, acc.2.1, acc.2.2)

/-- Embeds the segment-processing tail of `LegacyChatSession.chat`: fold
the segments, then, in combine mode, flush a non-blank content buffer as a
final assistant message (after every tool call of the round has executed);
returns the state and the `visibleText` return value. -/
def legacyProcessSegments (getTool : String → Option ToolDefinition)
    (combine : Bool) (st : LegacyState) (segs : List LegacySeg) :
    LegacyState × String :=
  let r := segs.foldl (legacyStep getTool combine) (st, "", "")
  if combine = true ∧ jsTrim r.2.2 ≠ "" then
    ({ r.1 with msgs := r.1.msgs ++ [.assistant r.2.2] }, r.2.1 ++ r.2.2)
  else (r.1, r.2.1)

/-- Concatenation of a list of chunks (the text accumulated by a sequence
of pushes). -/
def joinAll : List (List Char) → List Char
  | [] => []
  | c :: cs => c ++ joinAll cs

/-- The single message `executeToolCalls` appends for one call: a `tool`
message on success, an `assistant` error message on failure. -/
def expectedCallMsg (svc : Option (String → JVal → Except String JVal))
    (c : SessionToolCall) : ChatMessage :=
  match runService svc c.name c.arguments with
  | .ok r => .tool c.name (stringifyResult r) c.arguments
  | .error m => .assistant ("Error executing " ++ c.name ++ ": " ++ m)

/-- A successful scan result is in bounds: the match index fits in the
string and some pattern matches at it. -/
theorem firstIdxAny_some_spec (ps : List (List Char)) (s : List Char) (i : Nat)
    (h : firstIdxAny ps s = some i) :
    i ≤ s.length ∧ ps.any (fun p => p.isPrefixOf (s.drop i)) = true := by
  induction s generalizing i with
  | nil =>
    simp only [firstIdxAny] at h
    split at h
    · cases h
      simpa using (by assumption : ps.any (fun p => p.isPrefixOf ([] : List Char)) = true)
    · cases h
  | cons c rest ih =>
    simp only [firstIdxAny] at h
    split at h
    · cases h
      simpa using (by assumption : ps.any (fun p => p.isPrefixOf (c :: rest)) = true)
    · rw [Option.map_eq_some'] at h
      obtain ⟨j, hj, rfl⟩ := h
      obtain ⟨h1, h2⟩ := ih j hj
      refine ⟨by simpa using Nat.succ_le_succ h1, ?_⟩
      simpa [List.drop_succ_cons] using h2

/-- The end index of a found block is positive and within the string
(needed for termination of the repeated-scan loops). -/
theorem findBlockG_bounds (op cl s : List Char) (i e : Nat) (inner : List Char)
    (hcl : cl ≠ []) (h : findBlockG op cl s = some (i, inner, e)) :
    0 < e ∧ e ≤ s.length := by
  unfold findBlockG at h
  cases h1 : firstIdxAny [op] s with
  | none => simp only [h1] at h; exact Option.noConfusion h
  | some i0 =>
    cases h2 : firstIdxAny [cl] (s.drop (i0 + op.length)) with
    | none => simp only [h1, h2] at h; exact Option.noConfusion h
    | some k =>
      simp only [h1, h2, Option.some.injEq, Prod.mk.injEq] at h
      obtain ⟨hi, hinner, he⟩ := h
      have hs1 := firstIdxAny_some_spec [op] s i0 h1
      have hs2 := firstIdxAny_some_spec [cl] _ k h2
      obtain ⟨hk_le, hany⟩ := hs2
      simp only [List.any_cons, List.any_nil, Bool.or_false] at hany
      have hpl : cl.length ≤ ((s.drop (i0 + op.length)).drop k).length :=
        (List.isPrefixOf_iff_prefix.mp hany).length_le
      have hclpos : 0 < cl.length := List.length_pos.mpr hcl
      simp only [List.length_drop] at hpl hk_le
      omega

/-- Non-emptiness of the `function_calling` close tag. -/
theorem clFC_ne : clFC ≠ [] := by decide

/-- Non-emptiness of the `tool_use` close tag. -/
theorem clTU_ne : clTU ≠ [] := by decide

/-- Non-emptiness of the `tool_call` close tag. -/
theorem clTC_ne : clTC ≠ [] := by decide

/-- The fuel argument of `scanBlocksF` is irrelevant once it exceeds the
string length (every step consumes at least one character). -/
theorem scanBlocksF_stable (op cl : List Char) (hcl : cl ≠ []) :
    ∀ (f g : Nat) (s : List Char), s.length < f → s.length < g →
      scanBlocksF op cl f s = scanBlocksF op cl g s := by
  intro f
  induction f with
  | zero => intro g s hf; omega
  | succ f ih =>
    intro g s hf hg
    cases g with
    | zero => omega
    | succ g =>
      simp only [scanBlocksF]
      cases h : findBlockG op cl s with
      | none => rfl
      | some r =>
        obtain ⟨i, inner, e⟩ := r
        have hb := findBlockG_bounds op cl s i e inner hcl h
        have hlt : (s.drop e).length < f := by
          simp only [List.length_drop]; omega
        have hlt2 : (s.drop e).length < g := by
          simp only [List.length_drop]; omega
        dsimp only
        rw [ih g (s.drop e) hlt hlt2]

/-- Fuel-free unfolding of `scanBlocks`: it satisfies the recursion of the
source's `exec` loop. -/
theorem scanBlocks_eq (op cl : List Char) (hcl : cl ≠ []) (s : List Char) :
    scanBlocks op cl s =
      match findBlockG op cl s with
      | none => []
      | some (_, inner, e) => inner :: scanBlocks op cl (s.drop e) := by
  unfold scanBlocks
  conv_lhs => rw [scanBlocksF]
  cases h : findBlockG op cl s with
  | none => rfl
  | some r =>
    obtain ⟨i, inner, e⟩ := r
    have hb := findBlockG_bounds op cl s i e inner hcl h
    have h1 : (s.drop e).length < s.length := by
      simp only [List.length_drop]; omega
    dsimp only
    rw [scanBlocksF_stable op cl hcl s.length ((s.drop e).length + 1) (s.drop e)
      (by omega) (by omega)]

/-- The fuel argument of `removeBlocksF` is irrelevant once it exceeds the
string length. -/
theorem removeBlocksF_stable (op cl : List Char) (hcl : cl ≠ []) :
    ∀ (f g : Nat) (s : List Char), s.length < f → s.length < g →
      removeBlocksF op cl f s = removeBlocksF op cl g s := by
  intro f
  induction f with
  | zero => intro g s hf; omega
  | succ f ih =>
    intro g s hf hg
    cases g with
    | zero => omega
    | succ g =>
      simp only [removeBlocksF]
      cases h : findBlockG op cl s with
      | none => rfl
      | some r =>
        obtain ⟨i, inner, e⟩ := r
        have hb := findBlockG_bounds op cl s i e inner hcl h
        have hlt : (s.drop e).length < f := by
          simp only [List.length_drop]; omega
        have hlt2 : (s.drop e).length < g := by
          simp only [List.length_drop]; omega
        dsimp only
        rw [ih g (s.drop e) hlt hlt2]

/-- Fuel-free unfolding of `removeBlocks`. -/
theorem removeBlocks_eq (op cl : List Char) (hcl : cl ≠ []) (s : List Char) :
    removeBlocks op cl s =
      match findBlockG op cl s with
      | none => s
      | some (i, _, e) => s.take i ++ removeBlocks op cl (s.drop e) := by
  unfold removeBlocks
  conv_lhs => rw [removeBlocksF]
  cases h : findBlockG op cl s with
  | none => rfl
  | some r =>
    obtain ⟨i, inner, e⟩ := r
    have hb := findBlockG_bounds op cl s i e inner hcl h
    dsimp only
    rw [removeBlocksF_stable op cl hcl s.length ((s.drop e).length + 1) (s.drop e)
      (by simp only [List.length_drop]; omega) (by omega)]

/-- A pattern that is a prefix of a take is a prefix of the whole list. -/
theorem isPrefixOf_of_take (p t : List Char) (k : Nat)
    (h : p.isPrefixOf (t.take k) = true) : p.isPrefixOf t = true := by
  rw [List.isPrefixOf_iff_prefix] at h ⊢
  exact h.trans (List.take_prefix k t)

/-- No pattern occurs anywhere iff the scan returns `none`. -/
theorem firstIdxAny_eq_none_iff (ps : List (List Char)) (s : List Char) :
    firstIdxAny ps s = none ↔
      ∀ j, (ps.any (fun p => p.isPrefixOf (s.drop j))) = false := by
  induction s with
  | nil =>
    simp only [firstIdxAny, List.drop_nil]
    by_cases hb : (ps.any fun p => p.isPrefixOf ([] : List Char)) = true
    · rw [if_pos hb]
      constructor
      · intro h; cases h
      · intro h; rw [h 0] at hb; cases hb
    · rw [if_neg hb]
      simp only [Bool.not_eq_true] at hb
      constructor
      · intro _ j; exact hb
      · intro _; rfl
  | cons c rest ih =>
    simp only [firstIdxAny]
    constructor
    · intro h j
      split at h
      · cases h
      · cases j with
        | zero =>
          rw [List.drop_zero]
          simpa using (by assumption : ¬ (ps.any fun p => p.isPrefixOf (c :: rest)) = true)
        | succ j' =>
          rw [Option.map_eq_none'] at h
          simpa [List.drop_succ_cons] using (ih.mp h) j'
    · intro h
      have h0 := h 0
      rw [List.drop_zero] at h0
      rw [if_neg (by simp [h0])]
      rw [Option.map_eq_none']
      exact ih.mpr (fun j => by simpa [List.drop_succ_cons] using h (j + 1))

/-- Positions before a successful scan result have no match. -/
theorem firstIdxAny_some_min (ps : List (List Char)) (s : List Char) (i : Nat)
    (h : firstIdxAny ps s = some i) :
    ∀ j, j < i → (ps.any (fun p => p.isPrefixOf (s.drop j))) = false := by
  induction s generalizing i with
  | nil =>
    simp only [firstIdxAny] at h
    split at h
    · cases h; intro j hj; omega
    · cases h
  | cons c rest ih =>
    simp only [firstIdxAny] at h
    split at h
    · cases h; intro j hj; omega
    · rw [Option.map_eq_some'] at h
      obtain ⟨i', hi', rfl⟩ := h
      intro j hj
      cases j with
      | zero =>
        simpa using (by assumption : ¬ (ps.any fun p => p.isPrefixOf (c :: rest)) = true)
      | succ j' =>
        simpa [List.drop_succ_cons] using ih i' hi' j' (by omega)

/-- Introduction form for a successful scan: a match at `d` and no match
before it pin the result. -/
theorem firstIdxAny_eq_some_intro (ps : List (List Char)) (t : List Char) (d : Nat)
    (h1 : ps.any (fun p => p.isPrefixOf (t.drop d)) = true)
    (h2 : ∀ j, j < d → ps.any (fun p => p.isPrefixOf (t.drop j)) = false) :
    firstIdxAny ps t = some d := by
  induction t generalizing d with
  | nil =>
    cases d with
    | zero => simp only [firstIdxAny]; rw [if_pos (by simpa using h1)]
    | succ d' =>
      exfalso
      have h0 := h2 0 (Nat.succ_pos d')
      rw [List.drop_nil] at h1
      rw [List.drop_nil] at h0
      rw [h0] at h1
      cases h1
  | cons c rest ih =>
    cases d with
    | zero => simp only [firstIdxAny]; rw [if_pos (by simpa using h1)]
    | succ d' =>
      have h0 := h2 0 (Nat.succ_pos d')
      rw [List.drop_zero] at h0
      simp only [firstIdxAny]
      rw [if_neg (by simp [h0])]
      rw [ih d' (by simpa [List.drop_succ_cons] using h1)
        (fun j hj => by simpa [List.drop_succ_cons] using h2 (j + 1) (by omega))]
      rfl

/-- A scan that fails on a list fails on every take of it. -/
theorem firstIdxAny_none_take (ps : List (List Char)) (s : List Char) (m : Nat)
    (h : firstIdxAny ps s = none) : firstIdxAny ps (s.take m) = none := by
  rw [firstIdxAny_eq_none_iff] at h ⊢
  intro j
  rw [List.any_eq_false]
  intro p hp
  intro hpre
  have hfull : p.isPrefixOf (s.drop j) = true := by
    have : (s.take m).drop j = (s.drop j).take (m - j) := List.drop_take ..
    rw [this] at hpre
    exact isPrefixOf_of_take p (s.drop j) (m - j) hpre
  have := h j
  rw [List.any_eq_false] at this
  exact absurd hfull (by simpa using this p hp)

/-- A scan that fails on a list fails on every drop of it. -/
theorem firstIdxAny_none_drop (ps : List (List Char)) (s : List Char) (k : Nat)
    (h : firstIdxAny ps s = none) : firstIdxAny ps (s.drop k) = none := by
  rw [firstIdxAny_eq_none_iff] at h ⊢
  intro j
  rw [List.drop_drop]
  exact h (k + j)

/-- Shifting a successful scan across a drop that stays before the match. -/
theorem firstIdxAny_drop_shift (ps : List (List Char)) (s : List Char) (i k : Nat)
    (h : firstIdxAny ps s = some i) (hk : k ≤ i) :
    firstIdxAny ps (s.drop k) = some (i - k) := by
  have hspec := firstIdxAny_some_spec ps s i h
  apply firstIdxAny_eq_some_intro
  · rw [List.drop_drop]
    have heq : k + (i - k) = i := by omega
    rw [heq]
    exact hspec.2
  · intro j hj
    rw [List.drop_drop]
    exact firstIdxAny_some_min ps s i h (k + j) (by omega)

/-- On an empty string a scan over non-empty patterns finds nothing. -/
theorem firstIdxAny_nil_none (ps : List (List Char)) (hps : ∀ p ∈ ps, p ≠ []) :
    firstIdxAny ps [] = none := by
  simp only [firstIdxAny]
  rw [if_neg]
  intro hcontra
  rw [List.any_eq_true] at hcontra
  obtain ⟨p, hp, hpre⟩ := hcontra
  cases p with
  | nil => exact hps [] hp rfl
  | cons a as => simp [List.isPrefixOf] at hpre

/-- No block is found when the open tag does not occur. -/
theorem findBlockG_none_of_no_open (op cl s : List Char)
    (h : firstIdxAny [op] s = none) : findBlockG op cl s = none := by
  unfold findBlockG
  rw [h]

/-- No block is found when the close tag does not occur. -/
theorem findBlockG_none_of_no_close (op cl s : List Char)
    (h : firstIdxAny [cl] s = none) : findBlockG op cl s = none := by
  unfold findBlockG
  cases h1 : firstIdxAny [op] s with
  | none => rfl
  | some i =>
    dsimp only
    rw [firstIdxAny_none_drop [cl] s (i + op.length) h]

/-- The pattern scan collects nothing when no block is found. -/
theorem scanBlocks_of_findBlockG_none (op cl s : List Char)
    (h : findBlockG op cl s = none) : scanBlocks op cl s = [] := by
  simp only [scanBlocks, scanBlocksF, h]

/-- Block removal is the identity when no block is found. -/
theorem removeBlocks_of_findBlockG_none (op cl s : List Char)
    (h : findBlockG op cl s = none) : removeBlocks op cl s = s := by
  simp only [removeBlocks, removeBlocksF, h]

/-- A `tool`-protocol push detects nothing and leaves the buffer as
accumulated whenever the `tool_call` close tag does not occur in the
buffer-plus-chunk and the `function_call` open tag does not occur either. -/
theorem push_tool_no_detect (P : ExtParsers) (fmt : PayloadFormat)
    (buf chunk : List Char)
    (hcl : firstIdxAny [clTC] (buf ++ chunk) = none)
    (hfc : firstIdxAny [opFC] (buf ++ chunk) = none) :
    pushImpl P .tool fmt buf chunk = { buffer := buf ++ chunk, calls := none } := by
  unfold pushImpl
  have h1 : scanBlocks opTC clTC (buf ++ chunk) = [] :=
    scanBlocks_of_findBlockG_none _ _ _ (findBlockG_none_of_no_close _ _ _ hcl)
  have h2 : scanBlocks opFC clFC (buf ++ chunk) = [] :=
    scanBlocks_of_findBlockG_none _ _ _ (findBlockG_none_of_no_open _ _ _ hfc)
  simp only [scanProtocol, h1, h2, List.append_nil, List.filterMap_nil, List.isEmpty_nil,
    if_true]

/-- When the only occurrence of the `tool_call` close tag in a complete
block is the final one, no proper prefix of the block contains the close
tag at all. -/
theorem no_close_in_prefix (Pl : List Char) (m : Nat)
    (hcl : firstIdxAny [clTC] (opTC ++ Pl ++ clTC) = some (opTC.length + Pl.length))
    (hm : m < (opTC ++ Pl ++ clTC).length) :
    firstIdxAny [clTC] ((opTC ++ Pl ++ clTC).take m) = none := by
  rw [firstIdxAny_eq_none_iff]
  intro j
  rw [List.any_eq_false]
  intro p hp
  simp only [List.mem_singleton] at hp
  subst hp
  intro hpre
  have hfull : clTC.isPrefixOf ((opTC ++ Pl ++ clTC).drop j) = true := by
    rw [List.drop_take] at hpre
    exact isPrefixOf_of_take _ _ _ hpre
  have hlenpre := (List.isPrefixOf_iff_prefix.mp hpre).length_le
  simp only [List.length_drop, List.length_take] at hlenpre
  have hge : ¬ (j < opTC.length + Pl.length) := by
    intro hlt
    have hmin := firstIdxAny_some_min [clTC] _ _ hcl j hlt
    rw [List.any_eq_false] at hmin
    have := hmin clTC (List.mem_singleton_self _)
    rw [hfull] at this
    exact this rfl
  have hblk : (opTC ++ Pl ++ clTC).length = opTC.length + Pl.length + clTC.length := by
    simp only [List.length_append]
  have hclpos : 0 < clTC.length := List.length_pos.mpr clTC_ne
  omega

/-- A `tool`-protocol push whose buffer-plus-chunk is exactly one complete
`tool_call` block (close tag occurring only at the very end, no
`function_call` or `tool_use` tag anywhere, payload parsing to `v`) detects
exactly that one call and empties the buffer. -/
theorem push_tool_detect (P : ExtParsers) (fmt : PayloadFormat)
    (Pl : List Char) (v : JVal)
    (hcl : firstIdxAny [clTC] (opTC ++ Pl ++ clTC) = some (opTC.length + Pl.length))
    (hfc : firstIdxAny [opFC] (opTC ++ Pl ++ clTC) = none)
    (htu : firstIdxAny [opTU] (opTC ++ Pl ++ clTC) = none)
    (hp : parseToolCallPayload P (String.mk Pl) fmt = .ok v)
    (pre c : List Char) (hpc : pre ++ c = opTC ++ Pl ++ clTC) :
    pushImpl P .tool fmt pre c = { buffer := [], calls := some [v] } := by
  have hopen : firstIdxAny [opTC] (opTC ++ Pl ++ clTC) = some 0 := by
    apply firstIdxAny_eq_some_intro
    · rw [List.drop_zero]
      simp only [List.any_cons, List.any_nil, Bool.or_false]
      exact List.isPrefixOf_iff_prefix.mpr (List.prefix_append _ _)
    · intro j hj; omega
  have hdrop : (opTC ++ Pl ++ clTC).drop (0 + opTC.length) = Pl ++ clTC := by
    rw [Nat.zero_add, List.append_assoc, List.drop_left]
  have hclosePos : firstIdxAny [clTC] (Pl ++ clTC) = some Pl.length := by
    have hsh := firstIdxAny_drop_shift [clTC] _ _ opTC.length hcl (by omega)
    rw [List.append_assoc, List.drop_left] at hsh
    rw [hsh]
    congr 1
    omega
  have hblkLen : (opTC ++ Pl ++ clTC).length =
      opTC.length + Pl.length + clTC.length := by
    simp only [List.length_append]
  have hfind : findBlockG opTC clTC (opTC ++ Pl ++ clTC) =
      some (0, Pl, (opTC ++ Pl ++ clTC).length) := by
    unfold findBlockG
    rw [hopen]
    dsimp only
    rw [hdrop, hclosePos]
    dsimp only
    rw [List.take_left]
    have he : 0 + opTC.length + Pl.length + clTC.length = (opTC ++ Pl ++ clTC).length := by
      simp only [List.length_append]
      omega
    rw [he]
  have hscanTC : scanBlocks opTC clTC (opTC ++ Pl ++ clTC) = [Pl] := by
    rw [scanBlocks_eq opTC clTC clTC_ne, hfind]
    dsimp only
    rw [List.drop_length]
    rfl
  have hscanFC : scanBlocks opFC clFC (opTC ++ Pl ++ clTC) = [] :=
    scanBlocks_of_findBlockG_none _ _ _ (findBlockG_none_of_no_open _ _ _ hfc)
  have hremFC : removeBlocks opFC clFC (opTC ++ Pl ++ clTC) = opTC ++ Pl ++ clTC :=
    removeBlocks_of_findBlockG_none _ _ _ (findBlockG_none_of_no_open _ _ _ hfc)
  have hremTU : removeBlocks opTU clTU (opTC ++ Pl ++ clTC) = opTC ++ Pl ++ clTC :=
    removeBlocks_of_findBlockG_none _ _ _ (findBlockG_none_of_no_open _ _ _ htu)
  have hremTC : removeBlocks opTC clTC (opTC ++ Pl ++ clTC) = [] := by
    rw [removeBlocks_eq opTC clTC clTC_ne, hfind]
    dsimp only
    rw [List.drop_length, List.take_zero]
    rfl
  unfold pushImpl
  rw [hpc]
  simp only [scanProtocol, hscanTC, hscanFC, List.append_nil, List.filterMap_cons, hp]
  simp only [Except.toOption, List.filterMap_nil]
  simp only [List.isEmpty_cons]
  rw [hremFC, hremTU, hremTC]
  rfl

/-- Concatenation distributes over chunk-list append. -/
theorem joinAll_append (a b : List (List Char)) :
    joinAll (a ++ b) = joinAll a ++ joinAll b := by
  induction a with
  | nil => rfl
  | cons c cs ih => simp [joinAll, ih]

/-- The text accumulated by a prefix of the pushes is a prefix of the whole
accumulated text. -/
theorem joinAll_take_prefix (cs : List (List Char)) (j : Nat) :
    joinAll (cs.take j) <+: joinAll cs := by
  refine ⟨joinAll (cs.drop j), ?_⟩
  rw [← joinAll_append, List.take_append_drop]

/-- An empty concatenation forces every chunk to be empty. -/
theorem joinAll_eq_nil (cs : List (List Char)) (h : joinAll cs = []) :
    ∀ x ∈ cs, x = [] := by
  induction cs with
  | nil => intro x hx; cases hx
  | cons c rest ih =>
    simp only [joinAll] at h
    rw [List.append_eq_nil] at h
    intro x hx
    cases hx with
    | head => exact h.1
    | tail _ hmem => exact ih h.2 x hmem

/-- Pushing a sequence of empty chunks into an empty `tool`-protocol buffer
detects nothing and keeps the buffer empty. -/
theorem runPushes_empty_chunks (P : ExtParsers) (fmt : PayloadFormat)
    (cs : List (List Char)) (h : ∀ x ∈ cs, x = []) :
    runPushes P .tool fmt [] cs = ([], List.replicate cs.length none) := by
  induction cs with
  | nil => rfl
  | cons c rest ih =>
    have hc : c = [] := h c (List.mem_cons_self c rest)
    subst hc
    simp only [runPushes]
    have hpush : pushImpl P .tool fmt [] [] = { buffer := [], calls := none } := rfl
    rw [hpush]
    rw [ih (fun x hx => h x (List.mem_cons_of_mem _ hx))]
    rfl

/-- While the accumulated text is a proper prefix of one complete
`tool_call` block, every push of the sequence detects nothing and the
buffer is exactly the accumulated text. -/
theorem runPushes_incomplete (P : ExtParsers) (fmt : PayloadFormat) (Pl : List Char)
    (hcl : firstIdxAny [clTC] (opTC ++ Pl ++ clTC) = some (opTC.length + Pl.length))
    (hfc : firstIdxAny [opFC] (opTC ++ Pl ++ clTC) = none) :
    ∀ (cs : List (List Char)) (m : Nat),
      (opTC ++ Pl ++ clTC).take m ++ joinAll cs <+: opTC ++ Pl ++ clTC →
      m + (joinAll cs).length < (opTC ++ Pl ++ clTC).length →
      runPushes P .tool fmt ((opTC ++ Pl ++ clTC).take m) cs =
        ((opTC ++ Pl ++ clTC).take (m + (joinAll cs).length),
          List.replicate cs.length none) := by
  intro cs
  induction cs with
  | nil =>
    intro m _ _
    simp [runPushes, joinAll]
  | cons c rest ih =>
    intro m hacc hlt
    have hmlt : m < (opTC ++ Pl ++ clTC).length := by
      have := (joinAll (c :: rest)).length
      omega
    have htklen : ((opTC ++ Pl ++ clTC).take m).length = m := by
      rw [List.length_take]; omega
    have hjoin : joinAll (c :: rest) = c ++ joinAll rest := rfl
    have haccc : (opTC ++ Pl ++ clTC).take m ++ c <+: opTC ++ Pl ++ clTC := by
      refine List.IsPrefix.trans ⟨joinAll rest, ?_⟩ hacc
      rw [hjoin, List.append_assoc]
    have hacceq : (opTC ++ Pl ++ clTC).take m ++ c =
        (opTC ++ Pl ++ clTC).take (m + c.length) := by
      have := List.prefix_iff_eq_take.mp haccc
      rwa [List.length_append, htklen] at this
    have hmc : m + c.length < (opTC ++ Pl ++ clTC).length := by
      rw [hjoin, List.length_append] at hlt
      omega
    have hnone : pushImpl P .tool fmt ((opTC ++ Pl ++ clTC).take m) c =
        { buffer := (opTC ++ Pl ++ clTC).take m ++ c, calls := none } := by
      apply push_tool_no_detect
      · rw [hacceq]
        exact no_close_in_prefix Pl (m + c.length) hcl hmc
      · rw [hacceq]
        exact firstIdxAny_none_take [opFC] _ (m + c.length) hfc
    simp only [runPushes]
    rw [hnone]
    have ihres := ih (m + c.length)
      (by rw [← hacceq, List.append_assoc, ← hjoin]; exact hacc)
      (by rw [hjoin, List.length_append] at hlt; omega)
    rw [hacceq, ihres, hjoin, List.length_append, ← Nat.add_assoc]
    rfl

/-- A run of pushes whose accumulated text completes one `tool_call` block
detects the call exactly once, at the push whose chunk completes the block,
and ends with an empty buffer. -/
theorem runPushes_complete (P : ExtParsers) (fmt : PayloadFormat)
    (Pl : List Char) (v : JVal)
    (hcl : firstIdxAny [clTC] (opTC ++ Pl ++ clTC) = some (opTC.length + Pl.length))
    (hfc : firstIdxAny [opFC] (opTC ++ Pl ++ clTC) = none)
    (htu : firstIdxAny [opTU] (opTC ++ Pl ++ clTC) = none)
    (hp : parseToolCallPayload P (String.mk Pl) fmt = .ok v) :
    ∀ (cs : List (List Char)) (m : Nat),
      m < (opTC ++ Pl ++ clTC).length →
      (opTC ++ Pl ++ clTC).take m ++ joinAll cs = opTC ++ Pl ++ clTC →
      ∃ k, k < cs.length ∧
        runPushes P .tool fmt ((opTC ++ Pl ++ clTC).take m) cs =
          ([], List.replicate k none ++
            some [v] :: List.replicate (cs.length - k - 1) none) ∧
        m + (joinAll (cs.take (k + 1))).length = (opTC ++ Pl ++ clTC).length ∧
        m + (joinAll (cs.take k)).length < (opTC ++ Pl ++ clTC).length := by
  intro cs
  induction cs with
  | nil =>
    intro m hm h
    exfalso
    simp only [joinAll, List.append_nil] at h
    have := congrArg List.length h
    rw [List.length_take] at this
    omega
  | cons c rest ih =>
    intro m hm h
    have htklen : ((opTC ++ Pl ++ clTC).take m).length = m := by
      rw [List.length_take]; omega
    have hjoin : joinAll (c :: rest) = c ++ joinAll rest := rfl
    have haccc : (opTC ++ Pl ++ clTC).take m ++ c <+: opTC ++ Pl ++ clTC := by
      refine ⟨joinAll rest, ?_⟩
      rw [List.append_assoc, ← hjoin]
      exact h
    have hacceq : (opTC ++ Pl ++ clTC).take m ++ c =
        (opTC ++ Pl ++ clTC).take (m + c.length) := by
      have := List.prefix_iff_eq_take.mp haccc
      rwa [List.length_append, htklen] at this
    have hmcle : m + c.length ≤ (opTC ++ Pl ++ clTC).length := by
      have := haccc.length_le
      rwa [List.length_append, htklen] at this
    rcases Nat.lt_or_ge (m + c.length) (opTC ++ Pl ++ clTC).length with hlt2 | hge2
    · -- the chunk does not yet complete the block
      have hnone : pushImpl P .tool fmt ((opTC ++ Pl ++ clTC).take m) c =
          { buffer := (opTC ++ Pl ++ clTC).take m ++ c, calls := none } := by
        apply push_tool_no_detect
        · rw [hacceq]
          exact no_close_in_prefix Pl (m + c.length) hcl hlt2
        · rw [hacceq]
          exact firstIdxAny_none_take [opFC] _ (m + c.length) hfc
      have hrest : (opTC ++ Pl ++ clTC).take (m + c.length) ++ joinAll rest =
          opTC ++ Pl ++ clTC := by
        rw [← hacceq, List.append_assoc, ← hjoin]
        exact h
      obtain ⟨k, hk, hrun, hlen1, hlen2⟩ := ih (m + c.length) hlt2 hrest
      refine ⟨k + 1, by simp only [List.length_cons]; omega, ?_, ?_, ?_⟩
      · simp only [runPushes]
        rw [hnone]
        rw [hacceq]
        rw [hrun]
        have hcount : rest.length - k - 1 = (c :: rest).length - (k + 1) - 1 := by
          simp only [List.length_cons]; omega
        rw [hcount]
        rfl
      · rw [List.take_succ_cons]
        have hx : joinAll (c :: rest.take (k + 1)) = c ++ joinAll (rest.take (k + 1)) := rfl
        rw [hx, List.length_append]
        omega
      · rw [List.take_succ_cons]
        have hx : joinAll (c :: rest.take k) = c ++ joinAll (rest.take k) := rfl
        rw [hx, List.length_append]
        omega
    · -- this chunk completes the block
      have heq : m + c.length = (opTC ++ Pl ++ clTC).length := by omega
      have hpc : (opTC ++ Pl ++ clTC).take m ++ c = opTC ++ Pl ++ clTC := by
        rw [hacceq, heq, List.take_length]
      have hdetect := push_tool_detect P fmt Pl v hcl hfc htu hp _ _ hpc
      have hrestnil : joinAll rest = [] := by
        have h2 : ((opTC ++ Pl ++ clTC).take m ++ c) ++ joinAll rest =
            opTC ++ Pl ++ clTC := by
          rw [List.append_assoc, ← hjoin]; exact h
        rw [hpc] at h2
        have := congrArg List.length h2
        rw [List.length_append] at this
        have hz : (joinAll rest).length = 0 := by omega
        exact List.length_eq_zero.mp hz
      have hallnil : ∀ x ∈ rest, x = [] := joinAll_eq_nil rest hrestnil
      refine ⟨0, by simp, ?_, ?_, ?_⟩
      · simp only [runPushes]
        rw [hdetect]
        rw [runPushes_empty_chunks P fmt rest hallnil]
        have hcount : rest.length = (c :: rest).length - 0 - 1 := by
          simp only [List.length_cons]; omega
        rw [hcount]
        rfl
      · show m + (joinAll [c]).length = _
        have : joinAll [c] = c ++ [] := rfl
        rw [this, List.append_nil]
        omega
      · show m + (joinAll []).length < _
        simpa using hm

/-- Visibility of a partial block: once the complete open tag has arrived
the visible content is empty; while the open tag itself is still partial,
the whole (partial-tag) prefix is visible. -/
theorem visible_of_take_block (Pl : List Char) (m : Nat) :
    (opTC.length ≤ m → getVisibleContent ((opTC ++ Pl ++ clTC).take m) = []) ∧
    (m < opTC.length → getVisibleContent ((opTC ++ Pl ++ clTC).take m) =
      (opTC ++ Pl ++ clTC).take m) := by
  constructor
  · intro hge
    have hsplit : (opTC ++ Pl ++ clTC).take m =
        opTC ++ (Pl ++ clTC).take (m - opTC.length) := by
      rw [List.append_assoc, List.take_append_eq_append_take,
        List.take_of_length_le hge]
    have hfia : firstIdxAny [opFC, opTU, opTC] ((opTC ++ Pl ++ clTC).take m) =
        some 0 := by
      apply firstIdxAny_eq_some_intro
      · rw [List.drop_zero, hsplit]
        refine List.any_eq_true.mpr ⟨opTC, by simp, ?_⟩
        exact List.isPrefixOf_iff_prefix.mpr (List.prefix_append _ _)
      · intro j hj; omega
    unfold getVisibleContent
    rw [hfia]
    rfl
  · intro hlt
    have hsplit2 : (opTC ++ Pl ++ clTC).take m = opTC.take m := by
      rw [List.append_assoc, List.take_append_eq_append_take]
      have hz : m - opTC.length = 0 := by omega
      rw [hz, List.take_zero, List.append_nil]
    have h11 : opTC.length = 11 := rfl
    rw [h11] at hlt
    have hnone : firstIdxAny [opFC, opTU, opTC] (opTC.take m) = none := by
      interval_cases m <;> decide
    unfold getVisibleContent
    rw [hsplit2, hnone]

/-- C2 (amended): for every way of splitting one complete
`<tool_call>...</tool_call>` block (close tag occurring only at the end, no
other dialect tag inside, payload decoding successfully) across successive
pushes, exactly one tool call is detected, reported by the push whose chunk
completes the closing tag, with the buffer left empty; after every earlier
push the buffer is exactly the accumulated prefix, whose visible content is
empty as soon as the complete open tag has arrived — while the open tag is
only partially received, its characters are visible (which is why the
original claim's "visible content is empty after every intermediate push"
fails; see the counterexample). -/
theorem C2_split_block_detection (P : ExtParsers) (fmt : PayloadFormat)
    (Pl : List Char) (v : JVal) (cs : List (List Char))
    (hcl : firstIdxAny [clTC] (opTC ++ Pl ++ clTC) = some (opTC.length + Pl.length))
    (hfc : firstIdxAny [opFC] (opTC ++ Pl ++ clTC) = none)
    (htu : firstIdxAny [opTU] (opTC ++ Pl ++ clTC) = none)
    (hp : parseToolCallPayload P (String.mk Pl) fmt = .ok v)
    (hjoin : joinAll cs = opTC ++ Pl ++ clTC) :
    (∃ k, k < cs.length ∧
      runPushes P .tool fmt [] cs =
        ([], List.replicate k none ++
          some [v] :: List.replicate (cs.length - k - 1) none) ∧
      (joinAll (cs.take (k + 1))).length = (opTC ++ Pl ++ clTC).length ∧
      (joinAll (cs.take k)).length < (opTC ++ Pl ++ clTC).length) ∧
    (∀ j, (joinAll (cs.take j)).length < (opTC ++ Pl ++ clTC).length →
      runPushes P .tool fmt [] (cs.take j) =
        (joinAll (cs.take j), List.replicate (cs.take j).length none) ∧
      (opTC.length ≤ (joinAll (cs.take j)).length →
        getVisibleContent (joinAll (cs.take j)) = []) ∧
      ((joinAll (cs.take j)).length < opTC.length →
        getVisibleContent (joinAll (cs.take j)) = joinAll (cs.take j))) := by
  have hlen0 : 0 < (opTC ++ Pl ++ clTC).length := by
    have h11 : opTC.length = 11 := rfl
    simp only [List.length_append]
    omega
  constructor
  · obtain ⟨k, hk, hrun, h1, h2⟩ :=
      runPushes_complete P fmt Pl v hcl hfc htu hp cs 0 hlen0 (by simpa using hjoin)
    exact ⟨k, hk, by simpa using hrun, by simpa using h1, by simpa using h2⟩
  · intro j hj
    have hpre : joinAll (cs.take j) <+: opTC ++ Pl ++ clTC := by
      rw [← hjoin]
      exact joinAll_take_prefix cs j
    have hAeq := List.prefix_iff_eq_take.mp hpre
    have hrun := runPushes_incomplete P fmt Pl hcl hfc (cs.take j) 0
      (by simpa using hpre) (by simpa using hj)
    refine ⟨?_, ?_, ?_⟩
    · simp only [List.take_zero, Nat.zero_add] at hrun
      rw [← hAeq] at hrun
      simpa using hrun
    · intro hge
      have hv := (visible_of_take_block Pl ((joinAll (cs.take j)).length)).1 hge
      rw [← hAeq] at hv
      exact hv
    · intro hlt
      have hv := (visible_of_take_block Pl ((joinAll (cs.take j)).length)).2 hlt
      rw [← hAeq] at hv
      exact hv

/-- Concrete instantiation of the split-block theorem on the three-token
trace of the specification, with every hypothesis discharged by
computation. -/
theorem C2_witness :
    (∃ k, k < ([("<to").data, ("ol_call>\x7b\"name\":\"x\",\"argum").data,
        ("ents\":\x7b\x7d\x7d</tool_call>").data] : List (List Char)).length ∧
      runPushes refExtParsers .tool .auto []
          [("<to").data, ("ol_call>\x7b\"name\":\"x\",\"argum").data,
            ("ents\":\x7b\x7d\x7d</tool_call>").data] =
        ([], List.replicate k none ++
          some [JVal.obj [("name", JVal.str ("x")), ("arguments", JVal.obj [])]] ::
            List.replicate (([("<to").data, ("ol_call>\x7b\"name\":\"x\",\"argum").data,
              ("ents\":\x7b\x7d\x7d</tool_call>").data] : List (List Char)).length - k - 1) none) ∧
      (joinAll (([("<to").data, ("ol_call>\x7b\"name\":\"x\",\"argum").data,
          ("ents\":\x7b\x7d\x7d</tool_call>").data] : List (List Char)).take (k + 1))).length =
        (opTC ++ ("\x7b\"name\":\"x\",\"arguments\":\x7b\x7d\x7d").data ++ clTC).length ∧
      (joinAll (([("<to").data, ("ol_call>\x7b\"name\":\"x\",\"argum").data,
          ("ents\":\x7b\x7d\x7d</tool_call>").data] : List (List Char)).take k)).length <
        (opTC ++ ("\x7b\"name\":\"x\",\"arguments\":\x7b\x7d\x7d").data ++ clTC).length) ∧
    (∀ j, (joinAll (([("<to").data, ("ol_call>\x7b\"name\":\"x\",\"argum").data,
        ("ents\":\x7b\x7d\x7d</tool_call>").data] : List (List Char)).take j)).length <
        (opTC ++ ("\x7b\"name\":\"x\",\"arguments\":\x7b\x7d\x7d").data ++ clTC).length →
      runPushes refExtParsers .tool .auto []
          (([("<to").data, ("ol_call>\x7b\"name\":\"x\",\"argum").data,
            ("ents\":\x7b\x7d\x7d</tool_call>").data] : List (List Char)).take j) =
        (joinAll (([("<to").data, ("ol_call>\x7b\"name\":\"x\",\"argum").data,
          ("ents\":\x7b\x7d\x7d</tool_call>").data] : List (List Char)).take j),
          List.replicate (([("<to").data, ("ol_call>\x7b\"name\":\"x\",\"argum").data,
            ("ents\":\x7b\x7d\x7d</tool_call>").data] : List (List Char)).take j).length none) ∧
      (opTC.length ≤ (joinAll (([("<to").data, ("ol_call>\x7b\"name\":\"x\",\"argum").data,
          ("ents\":\x7b\x7d\x7d</tool_call>").data] : List (List Char)).take j)).length →
        getVisibleContent (joinAll (([("<to").data, ("ol_call>\x7b\"name\":\"x\",\"argum").data,
          ("ents\":\x7b\x7d\x7d</tool_call>").data] : List (List Char)).take j)) = []) ∧
      ((joinAll (([("<to").data, ("ol_call>\x7b\"name\":\"x\",\"argum").data,
          ("ents\":\x7b\x7d\x7d</tool_call>").data] : List (List Char)).take j)).length < opTC.length →
        getVisibleContent (joinAll (([("<to").data, ("ol_call>\x7b\"name\":\"x\",\"argum").data,
          ("ents\":\x7b\x7d\x7d</tool_call>").data] : List (List Char)).take j)) =
          joinAll (([("<to").data, ("ol_call>\x7b\"name\":\"x\",\"argum").data,
            ("ents\":\x7b\x7d\x7d</tool_call>").data] : List (List Char)).take j))) :=
  C2_split_block_detection refExtParsers .auto
    (("\x7b\"name\":\"x\",\"arguments\":\x7b\x7d\x7d").data)
    (JVal.obj [("name", JVal.str ("x")), ("arguments", JVal.obj [])])
    [("<to").data, ("ol_call>\x7b\"name\":\"x\",\"argum").data,
      ("ents\":\x7b\x7d\x7d</tool_call>").data]
    rfl rfl rfl rfl rfl

/-- C2 counterexample: after pushing the first token `"<to"`, the visible
content is `"<to"`, not the empty string the claim requires. -/
theorem C2_counterexample :
    getVisibleContent (runPushes refExtParsers .tool .auto [] [("<to").data]).1 =
      ("<to").data ∧ ("<to").data ≠ ([] : List Char) :=
  ⟨rfl, by decide⟩

/-- The three open tags are non-empty. -/
theorem openTags_ne : ∀ p ∈ [opFC, opTU, opTC], p ≠ [] := by decide

/-- The part of a scanned list before the first match contains no match at
all (over patterns that are all non-empty). -/
theorem firstIdxAny_some_take (ps : List (List Char)) (hps : ∀ p ∈ ps, p ≠ [])
    (s : List Char) (i : Nat) (h : firstIdxAny ps s = some i) :
    firstIdxAny ps (s.take i) = none := by
  rw [firstIdxAny_eq_none_iff]
  intro j
  rw [List.any_eq_false]
  intro p hp hpre
  rcases Nat.lt_or_ge j i with hj | hj
  · have hfull : p.isPrefixOf (s.drop j) = true := by
      rw [List.drop_take] at hpre
      exact isPrefixOf_of_take _ _ _ hpre
    have hmin := firstIdxAny_some_min ps s i h j hj
    rw [List.any_eq_false] at hmin
    have := hmin p hp
    rw [hfull] at this
    exact this rfl
  · have hlen : (s.take i).length ≤ i := by
      rw [List.length_take]; omega
    have hdropnil : (s.take i).drop j = [] := by
      apply List.drop_eq_nil_of_le
      omega
    rw [hdropnil] at hpre
    cases hpe : p with
    | nil => exact hps p hp (by rw [hpe])
    | cons a as => rw [hpe] at hpre; simp [List.isPrefixOf] at hpre

/-- C1 (amended): the visible content is always a prefix of the raw buffer
in which no complete dialect open tag occurs, for every buffer state (hence
for every sequence of pushed chunks).  The original claim's two further
assertions — that the visible length never decreases across pushes and that
characters of a partially received open tag are never visible — are false on
the code (see the counterexample): `getVisibleContent` only recognises
complete open tags, so a partial tag is fully visible until its completion
retroactively hides it. -/
theorem C1_visible_prefix_no_complete_tag (buf : List Char) :
    getVisibleContent buf <+: buf ∧
    firstIdxAny [opFC, opTU, opTC] (getVisibleContent buf) = none := by
  unfold getVisibleContent
  cases h : firstIdxAny [opFC, opTU, opTC] buf with
  | none => exact ⟨List.prefix_refl buf, h⟩
  | some i =>
    refine ⟨List.take_prefix i buf, ?_⟩
    exact firstIdxAny_some_take [opFC, opTU, opTC] openTags_ne buf i h

/-- C1 counterexample: pushing `"<to"` then `"ol_call>"` makes the visible
length drop from 3 to 0, and after the first push the visible content is
exactly the partially received open tag `"<to"`. -/
theorem C1_counterexample :
    (getVisibleContent (runPushes refExtParsers .tool .auto [] [("<to").data]).1).length = 3 ∧
    (getVisibleContent (runPushes refExtParsers .tool .auto []
      [("<to").data, ("ol_call>").data]).1).length = 0 ∧
    getVisibleContent (runPushes refExtParsers .tool .auto [] [("<to").data]).1 =
      ("<to").data :=
  ⟨rfl, rfl, rfl⟩

/-- C6 (amended): a complete block whose payload fails to decode is left in
the raw buffer, producing no detected call and no error, whenever no block
in the same push decodes successfully; but when some block of the push does
decode, the removal step strips every complete block of all three dialects
from the buffer — including blocks whose payload failed to decode (the
original claim's "including when another block in the same push decodes
successfully" is therefore false; see the counterexample). -/
theorem C6_failed_payload_kept (P : ExtParsers) (proto : Protocol)
    (fmt : PayloadFormat) (buf chunk : List Char)
    (hall : ∀ inner ∈ scanProtocol proto (buf ++ chunk),
      (parseToolCallPayload P (String.mk inner) fmt).isOk = false) :
    pushImpl P proto fmt buf chunk = { buffer := buf ++ chunk, calls := none } ∧
    (∀ (buf2 chunk2 : List Char),
      ((scanProtocol proto (buf2 ++ chunk2)).filterMap
        (fun inner => (parseToolCallPayload P (String.mk inner) fmt).toOption)).isEmpty
          = false →
      (pushImpl P proto fmt buf2 chunk2).buffer =
        removeBlocks opTC clTC (removeBlocks opTU clTU
          (removeBlocks opFC clFC (buf2 ++ chunk2)))) := by
  constructor
  · have hnil : (scanProtocol proto (buf ++ chunk)).filterMap
        (fun inner => (parseToolCallPayload P (String.mk inner) fmt).toOption) = [] := by
      rw [List.filterMap_eq_nil_iff]
      intro inner hmem
      have := hall inner hmem
      cases hx : parseToolCallPayload P (String.mk inner) fmt with
      | ok w => rw [hx] at this; simp [Except.isOk, Except.toBool] at this
      | error e => rfl
    simp only [pushImpl]
    rw [hnil]
    rfl
  · intro buf2 chunk2 hne
    simp only [pushImpl]
    rw [hne]
    rfl

/-- Concrete instantiation: one complete block with the undecodable payload
`"["` is left in the buffer and the push reports no call. -/
theorem C6_witness :
    (∀ inner ∈ scanProtocol .tool (([] : List Char) ++ ("<tool_call>[</tool_call>").data),
      (parseToolCallPayload refExtParsers (String.mk inner) .auto).isOk = false) ∧
    pushImpl refExtParsers .tool .auto [] (("<tool_call>[</tool_call>").data) =
      { buffer := ([] : List Char) ++ ("<tool_call>[</tool_call>").data, calls := none } :=
  ⟨by decide,
    (C6_failed_payload_kept refExtParsers .tool .auto [] (("<tool_call>[</tool_call>").data)
      (by decide)).1⟩

/-- C6 counterexample: in a push holding a failing block (payload `"["`)
and a decoding block, the failing block is removed from the buffer rather
than left in it (the buffer ends empty), while exactly one call is
reported. -/
theorem C6_counterexample :
    (pushImpl refExtParsers .tool .auto []
      ("<tool_call>[</tool_call><tool_call>\x7b\"name\":\"x\",\"arguments\":\x7b\x7d\x7d</tool_call>").data).buffer
        = [] ∧
    (pushImpl refExtParsers .tool .auto []
      ("<tool_call>[</tool_call><tool_call>\x7b\"name\":\"x\",\"arguments\":\x7b\x7d\x7d</tool_call>").data).calls
        = some [JVal.obj [("name", JVal.str ("x")), ("arguments", JVal.obj [])]] :=
  ⟨rfl, rfl⟩

/-- C7: for every payload string (and any behavior of the external JSON and
YAML parsers), decoding with format `auto` tries JSON, then YAML, then XML,
in that fixed order, on the trimmed fence-stripped payload, returning the
result of the first attempt that succeeds; and it fails — with the single
aggregate decode error — exactly when all three attempts fail. -/
theorem C7_auto_try_order (P : ExtParsers) (s : String) :
    parseToolCallPayload P s .auto =
      firstSuccessfulAttempt
        ("Could not parse tool/function call payload as JSON, YAML, or XML.")
        [tryParseJson P (stripMarkdownCodeBlock (jsTrim s)),
          (match P.yamlLoad (stripMarkdownCodeBlock (jsTrim s)) with
            | some v => Except.ok v
            | none => Except.error ("YAMLException")),
          parseXml P (stripMarkdownCodeBlock (jsTrim s))] ∧
    ((parseToolCallPayload P s .auto).isOk = false ↔
      (tryParseJson P (stripMarkdownCodeBlock (jsTrim s))).isOk = false ∧
      P.yamlLoad (stripMarkdownCodeBlock (jsTrim s)) = none ∧
      (parseXml P (stripMarkdownCodeBlock (jsTrim s))).isOk = false) := by
  simp only [parseToolCallPayload]
  cases h1 : tryParseJson P (stripMarkdownCodeBlock (jsTrim s)) with
  | ok v =>
    simp [firstSuccessfulAttempt, Except.isOk, Except.toBool]
  | error e1 =>
    cases h2 : P.yamlLoad (stripMarkdownCodeBlock (jsTrim s)) with
    | some v =>
      simp [firstSuccessfulAttempt, Except.isOk, Except.toBool]
    | none =>
      cases h3 : parseXml P (stripMarkdownCodeBlock (jsTrim s)) with
      | ok v => simp [firstSuccessfulAttempt, Except.isOk, Except.toBool]
      | error e3 => simp [firstSuccessfulAttempt, Except.isOk, Except.toBool]

/-- Executing a call never touches the seen-id set. -/
theorem execCall_seen (getTool : String → Option ToolDefinition)
    (st : HandlerState) (c : ParsedCall) (cid : Option String) :
    (execCall getTool st c cid).seen = st.seen := by
  unfold execCall
  (repeat' split) <;> rfl

/-- Core deduplication fact shared by the dedup claims: processing a call
with an id puts that id in the seen-set (whatever the call's outcome), and
a subsequent call carrying the same id is a no-op. -/
theorem handleOneCall_seen_and_skip (getTool : String → Option ToolDefinition)
    (st : HandlerState) (c c2 : ParsedCall) (i : String)
    (hc : callIdOf c = some i) (hc2 : callIdOf c2 = some i) :
    (handleOneCall getTool st c).seen.contains i = true ∧
    handleOneCall getTool (handleOneCall getTool st c) c2 =
      handleOneCall getTool st c := by
  have hstep : (handleOneCall getTool st c).seen.contains i = true := by
    unfold handleOneCall
    rw [hc]
    dsimp only
    by_cases hmem : st.seen.contains i = true
    · rw [if_pos hmem]; exact hmem
    · rw [if_neg hmem]
      rw [execCall_seen]
      simp
  refine ⟨hstep, ?_⟩
  set st1 := handleOneCall getTool st c with hst1
  unfold handleOneCall
  rw [hc2]
  dsimp only
  rw [if_pos hstep]

/-- C9: `handleToolCallFromModelOutput` adds a call's id to the seen-id set
before attempting execution — the id is in the set after processing the
call regardless of its outcome (universally quantified over the registry,
so also when the call ended in a failure) — and any later call with the
same id in the episode is skipped, leaving the state unchanged. -/
theorem C9_seen_id_added_before_execution (getTool : String → Option ToolDefinition)
    (st : HandlerState) (c c2 : ParsedCall) (i : String)
    (hc : callIdOf c = some i) (hc2 : callIdOf c2 = some i) :
    (handleOneCall getTool st c).seen.contains i = true ∧
    handleOneCall getTool (handleOneCall getTool st c) c2 =
      handleOneCall getTool st c :=
  handleOneCall_seen_and_skip getTool st c c2 i hc hc2

/-- Concrete instantiation of the seen-before-execution property: the first
call with id `dup` names an unregistered tool and fails, yet the second call
with the same id is still skipped. -/
theorem C9_witness :
    (handleOneCall (fun _ => none) ⟨[], [], [], []⟩
      ⟨some ("dup"), none, some ("ghost"), none⟩).seen.contains ("dup") = true ∧
    handleOneCall (fun _ => none)
      (handleOneCall (fun _ => none) ⟨[], [], [], []⟩
        ⟨some ("dup"), none, some ("ghost"), none⟩)
      ⟨some ("dup"), none, some ("ghost"), none⟩ =
      handleOneCall (fun _ => none) ⟨[], [], [], []⟩
        ⟨some ("dup"), none, some ("ghost"), none⟩ :=
  C9_seen_id_added_before_execution (fun _ => none) ⟨[], [], [], []⟩
    ⟨some ("dup"), none, some ("ghost"), none⟩
    ⟨some ("dup"), none, some ("ghost"), none⟩ ("dup") rfl rfl

/-- C4 (amended): in `handleToolCallFromModelOutput`'s loop, of two calls
carrying the same id only the first is processed — handling both yields
exactly the state of handling the first alone: no message, no result, no
handler invocation, no state change from the second.
`ChatSession.executeToolCalls`, however, performs no id-based deduplication
at all and executes both (see the counterexample). -/
theorem C4_handler_dedup (getTool : String → Option ToolDefinition)
    (st : HandlerState) (c1 c2 : ParsedCall) (i : String)
    (h1 : callIdOf c1 = some i) (h2 : callIdOf c2 = some i) :
    handleParsedCalls getTool st [c1, c2] = handleParsedCalls getTool st [c1] := by
  unfold handleParsedCalls
  simp only [List.foldl]
  exact (handleOneCall_seen_and_skip getTool st c1 c2 i h1 h2).2

/-- Concrete instantiation of the handler dedup theorem. -/
theorem C4_witness :
    handleParsedCalls (fun _ => none) ⟨[], [], [], []⟩
      [⟨some ("1"), none, some ("a"), none⟩, ⟨some ("1"), none, some ("b"), none⟩] =
    handleParsedCalls (fun _ => none) ⟨[], [], [], []⟩
      [⟨some ("1"), none, some ("a"), none⟩] :=
  C4_handler_dedup (fun _ => none) ⟨[], [], [], []⟩
    ⟨some ("1"), none, some ("a"), none⟩ ⟨some ("1"), none, some ("b"), none⟩
    ("1") rfl rfl

/-- C4 counterexample: `ChatSession.executeToolCalls` executes two calls
with the same id and appends a `tool` message for each — the second is not
skipped. -/
theorem C4_counterexample :
    (executeToolCalls (some (fun _ _ => .ok (JVal.str ("ok")))) ⟨[], []⟩
      [⟨some ("1"), "t", JVal.obj []⟩, ⟨some ("1"), "t", JVal.obj []⟩]).msgs =
    [ChatMessage.tool ("t") ("ok") (JVal.obj []),
     ChatMessage.tool ("t") ("ok") (JVal.obj [])] := rfl

/-- C10: when the buffer detects no tool calls in the complete model
output, the handler appends the entire raw output as one assistant message
and returns exactly one result named `none` with empty args whose result
field is the raw output. -/
theorem C10_no_tool_calls_plain_output (P : ExtParsers) (proto : Protocol)
    (fmt : PayloadFormat) (getTool : String → Option ToolDefinition)
    (st : HandlerState) (out : String)
    (h : (pushImpl P proto fmt [] out.data).calls = none) :
    handleToolCallFromModelOutput P proto fmt getTool st out =
      { st with msgs := st.msgs ++ [.assistant out]
                results := st.results ++
                  [⟨none, "none", JVal.obj [], some (JVal.str out), none,
                    .text out⟩] } := by
  unfold handleToolCallFromModelOutput
  rw [h]

/-- Concrete instantiation: the plain output `"hello"` contains no block,
so one assistant message and the single `none` result are produced. -/
theorem C10_witness :
    (pushImpl refExtParsers .tool .auto [] ("hello").data).calls = none ∧
    handleToolCallFromModelOutput refExtParsers .tool .auto (fun _ => none)
      ⟨[], [], [], []⟩ ("hello") =
      { msgs := [ChatMessage.assistant ("hello")]
        seen := []
        results := [⟨none, "none", JVal.obj [], some (JVal.str ("hello")), none,
          .text ("hello")⟩]
        invoked := [] } :=
  ⟨rfl, by
    rw [C10_no_tool_calls_plain_output refExtParsers .tool .auto (fun _ => none)
      ⟨[], [], [], []⟩ ("hello") rfl]
    rfl⟩

/-- C8 (amended): for every executed call in `ChatSession.executeToolCalls`,
a successful execution appends exactly one `tool` message carrying the
stringified handler result, and any failure (absent service, unregistered
tool, handler throw, timeout — all surfaced as the `Except.error` outcome of
the raced service call) appends exactly one `assistant` message describing
the error in place of a `tool` message.  The legacy session paths
(`LegacyChatSession.chat` / `processParsedToolCall`), by contrast, append a
message with role `tool` carrying the error text on failure — the third
conjunct shows an unregistered-tool failure there produces a `tool`-role
message (see also the counterexample). -/
theorem C8_success_tool_failure_assistant
    (svc : Option (String → JVal → Except String JVal)) (st : SessionState)
    (c : SessionToolCall) (getTool : String → Option ToolDefinition)
    (lst : LegacyState) (pc : ParsedCall) :
    (∀ r, runService svc c.name c.arguments = .ok r →
      (executeToolCalls svc st [c]).msgs =
        st.msgs ++ [.tool c.name (stringifyResult r) c.arguments]) ∧
    (∀ m, runService svc c.name c.arguments = .error m →
      (executeToolCalls svc st [c]).msgs =
        st.msgs ++ [.assistant ("Error executing " ++ c.name ++ ": " ++ m)]) ∧
    (∀ n, truthyStr pc.name = some n → getTool n = none →
      (legacyExecCall getTool lst pc).msgs =
        lst.msgs ++ [.tool n
          ("Function/tool call error: Error: " ++ ("Tool '" ++ n ++ "' not registered."))
          (argsOrEmpty pc)]) := by
  refine ⟨?_, ?_, ?_⟩
  · intro r hr
    simp only [executeToolCalls, List.foldl, execOneToolCall]
    rw [hr]
  · intro m hm
    simp only [executeToolCalls, List.foldl, execOneToolCall]
    rw [hm]
  · intro n hn hreg
    unfold legacyExecCall
    rw [hn]
    dsimp only
    rw [hreg]

/-- Concrete instantiation of the success and failure message shapes. -/
theorem C8_witness :
    (executeToolCalls (some (fun _ _ => .ok (JVal.str ("sunny")))) ⟨[], []⟩
      [⟨none, "w", JVal.obj []⟩]).msgs =
      [ChatMessage.tool ("w") ("sunny") (JVal.obj [])] ∧
    (executeToolCalls none ⟨[], []⟩ [⟨none, "w", JVal.obj []⟩]).msgs =
      [ChatMessage.assistant ("Error executing w: MCP service not available")] ∧
    (legacyExecCall (fun _ => none) ⟨[], []⟩
      ⟨none, none, some ("missing"), none⟩).msgs =
      [ChatMessage.tool ("missing")
        ("Function/tool call error: Error: Tool 'missing' not registered.")
        (JVal.obj [])] := by
  refine ⟨?_, ?_, ?_⟩
  · rw [(C8_success_tool_failure_assistant
      (some (fun _ _ => .ok (JVal.str ("sunny")))) ⟨[], []⟩
      ⟨none, "w", JVal.obj []⟩ (fun _ => none) ⟨[], []⟩
      ⟨none, none, some ("missing"), none⟩).1 (JVal.str ("sunny")) rfl]
    rfl
  · rw [(C8_success_tool_failure_assistant none ⟨[], []⟩
      ⟨none, "w", JVal.obj []⟩ (fun _ => none) ⟨[], []⟩
      ⟨none, none, some ("missing"), none⟩).2.1 ("MCP service not available") rfl]
    rfl
  · rw [(C8_success_tool_failure_assistant none ⟨[], []⟩
      ⟨none, "w", JVal.obj []⟩ (fun _ => none) ⟨[], []⟩
      ⟨none, none, some ("missing"), none⟩).2.2 ("missing") rfl rfl]
    rfl

/-- C8 counterexample: in the legacy chat path an unregistered-tool failure
appends a message with role `tool` (carrying the error text), not the
`assistant` message the claim requires for every failure. -/
theorem C8_counterexample :
    (legacyExecCall (fun _ => none) ⟨[], []⟩
      ⟨none, none, some ("ghost"), none⟩).msgs =
      [ChatMessage.tool ("ghost")
        ("Function/tool call error: Error: Tool 'ghost' not registered.")
        (JVal.obj [])] := rfl

/-- `executeToolCalls` appends exactly one message per call, in call
order. -/
theorem executeToolCalls_msgs (svc : Option (String → JVal → Except String JVal)) :
    ∀ (calls : List SessionToolCall) (st : SessionState),
      (executeToolCalls svc st calls).msgs =
        st.msgs ++ calls.map (expectedCallMsg svc) := by
  intro calls
  induction calls with
  | nil => intro st; simp [executeToolCalls]
  | cons c rest ih =>
    intro st
    have hstep : executeToolCalls svc st (c :: rest) =
        executeToolCalls svc (execOneToolCall svc st c) rest := rfl
    rw [hstep, ih]
    have hone : (execOneToolCall svc st c).msgs =
        st.msgs ++ [expectedCallMsg svc c] := by
      unfold execOneToolCall expectedCallMsg
      cases runService svc c.name c.arguments with
      | ok r => rfl
      | error m => rfl
    rw [hone]
    simp [List.map_cons]

/-- C3 (amended): in every `ChatSession` round whose segments carry
non-blank combined content, `processSegments` (reached through `chat`'s
user-message append, modelled by `chatRound`) appends that content as one
`assistant` message before executing any of the round's calls, so the
round's history reads: user message, assistant content, then the per-call
messages in call-detection order.  The source tests
`assistantContent.trim()`, so blank-but-non-empty content appends nothing;
and `LegacyChatSession.chat` in combine mode appends the combined content
only after the round's tool messages — both divergences from the original
claim are exhibited by the counterexample. -/
theorem C3_content_before_tool_messages
    (svc : Option (String → JVal → Except String JVal)) (st : SessionState)
    (u : String) (segs : List Seg)
    (hc : jsTrim (combinedContent segs) ≠ "") (hsvc : svc.isSome = true) :
    (chatRound svc st u segs).1.msgs =
      st.msgs ++ [.user u] ++ [.assistant (combinedContent segs)] ++
        (segToolCalls segs).map (expectedCallMsg svc) := by
  unfold chatRound processSegments
  dsimp only
  rw [if_pos hc]
  by_cases hcalls : (segToolCalls segs).isEmpty = false
  · rw [if_pos ⟨hcalls, hsvc⟩]
    rw [executeToolCalls_msgs]
  · rw [if_neg (fun hand => hcalls hand.1)]
    have hnil : segToolCalls segs = [] := by
      rcases hy : segToolCalls segs with _ | ⟨a, as⟩
      · rfl
      · rw [hy] at hcalls
        simp [List.isEmpty] at hcalls
    rw [hnil]
    simp

/-- Concrete instantiation: content precedes the tool message in the
`ChatSession` round history. -/
theorem C3_witness :
    (chatRound (some (fun _ _ => .ok (JVal.str ("sunny")))) ⟨[], []⟩
      ("What is the weather?")
      [Seg.content ("Let me check. "),
        Seg.toolCall ⟨none, "get_weather", JVal.obj []⟩]).1.msgs =
      [ChatMessage.user ("What is the weather?"),
        ChatMessage.assistant ("Let me check. "),
        ChatMessage.tool ("get_weather") ("sunny") (JVal.obj [])] := by
  rw [C3_content_before_tool_messages (some (fun _ _ => .ok (JVal.str ("sunny"))))
    ⟨[], []⟩ ("What is the weather?")
    [Seg.content ("Let me check. "),
      Seg.toolCall ⟨none, "get_weather", JVal.obj []⟩]
    (by decide) rfl]
  rfl

/-- C3 counterexample: first, `LegacyChatSession.chat` in combine mode
appends the round's combined content after the tool message, not before;
second, `ChatSession.processSegments` appends no assistant message at all
for non-empty but blank combined content. -/
theorem C3_counterexample :
    (legacyProcessSegments
      (fun n => if n = "get_weather" then
          some ⟨"get_weather", fun a => .ok a, fun _ => .ok (JVal.str ("sunny"))⟩
        else none)
      true ⟨[], []⟩
      [LegacySeg.content ("Let me check. "),
        LegacySeg.toolCall ⟨none, none, some ("get_weather"), some (JVal.obj [])⟩]).1.msgs =
      [ChatMessage.tool ("get_weather") ("sunny") (JVal.obj []),
        ChatMessage.assistant ("Let me check. ")] ∧
    (processSegments (some (fun _ _ => .ok (JVal.str ("ok")))) ⟨[], []⟩
      [Seg.content (" "), Seg.toolCall ⟨none, "t", JVal.obj []⟩]).1.msgs =
      [ChatMessage.tool ("t") ("ok") (JVal.obj [])] :=
  ⟨rfl, rfl⟩

/-- While every round's segments contain a tool call, the agentic loop
consumes its whole fuel, performing one model invocation per unit, and
returns the empty string. -/
theorem agenticLoop_all_toolcalls (oracle : Nat → List Seg)
    (svc : Option (String → JVal → Except String JVal)) :
    ∀ (fuel round : Nat) (st : SessionState),
      (∀ r, round ≤ r → r < round + fuel → hasToolCallSeg (oracle r) = true) →
      (agenticLoop oracle svc st round fuel).2 = ("", fuel) := by
  intro fuel
  induction fuel with
  | zero => intro round st _; rfl
  | succ fuel ih =>
    intro round st h
    have hcall : hasToolCallSeg (oracle round) = true :=
      h round (Nat.le_refl _) (by omega)
    simp only [agenticLoop, hcall, if_true]
    have hrest := ih (round + 1) (processSegments svc st (oracle round)).1
      (fun r hr1 hr2 => h r (by omega) (by omega))
    have h1 : (agenticLoop oracle svc (processSegments svc st (oracle round)).1
        (round + 1) fuel).2.1 = "" := by rw [hrest]
    have h2 : (agenticLoop oracle svc (processSegments svc st (oracle round)).1
        (round + 1) fuel).2.2 = fuel := by rw [hrest]
    rw [h1, h2]

/-- C5 (amended): in agentic mode with `maxIterations = N ≥ 1`, when every
round's output contains at least one tool call the orchestrator performs
exactly `N` model invocations and then stops, but it returns the empty
string — the content of the final (and every) tool-calling round is
discarded, not returned (see the counterexample); and a round whose output
contains zero tool calls stops the loop immediately, with exactly that one
invocation, returning that round's combined content.  (A configured
`maxIterations = 0` is falsy in the source and is replaced by the default
5, a further divergence shown in the counterexample.) -/
theorem C5_agentic_iteration_cap (oracle : Nat → List Seg)
    (svc : Option (String → JVal → Except String JVal))
    (st : SessionState) (N : Nat) :
    (1 ≤ N → (∀ r, r < N → hasToolCallSeg (oracle r) = true) →
      (agenticChat oracle svc st N).2 = ("", N)) ∧
    (∀ (fuel round : Nat) (st2 : SessionState), 1 ≤ fuel →
      hasToolCallSeg (oracle round) = false →
      (agenticLoop oracle svc st2 round fuel).2 =
        ((processSegments svc st2 (oracle round)).2, 1)) := by
  constructor
  · intro hN hall
    unfold agenticChat effectiveMaxIterations
    rw [if_neg (by omega)]
    exact agenticLoop_all_toolcalls oracle svc N 0 st
      (fun r hr1 hr2 => hall r (by omega))
  · intro fuel round st2 hfuel hno
    cases fuel with
    | zero => omega
    | succ fuel =>
      simp only [agenticLoop, hno]
      rfl

/-- Concrete instantiations of both stopping behaviors. -/
theorem C5_witness :
    (agenticChat (fun _ => [Seg.toolCall ⟨none, "t", JVal.obj []⟩]) none
      ⟨[], []⟩ 2).2 = ("", 2) ∧
    (agenticLoop (fun _ => [Seg.content ("done")]) none ⟨[], []⟩ 0 5).2 =
      ((processSegments none ⟨[], []⟩ [Seg.content ("done")]).2, 1) :=
  ⟨(C5_agentic_iteration_cap (fun _ => [Seg.toolCall ⟨none, "t", JVal.obj []⟩])
      none ⟨[], []⟩ 2).1 (by omega) (fun r _ => rfl),
    (C5_agentic_iteration_cap (fun _ => [Seg.content ("done")]) none ⟨[], []⟩ 2).2
      5 0 ⟨[], []⟩ (by omega) rfl⟩

/-- C5 counterexample: with `maxIterations = 1` and a round producing
content `"thinking..."` plus a tool call, the orchestrator performs the one
invocation but returns `""`, not the final round's content; and with
`maxIterations = 0` it performs five invocations, not zero. -/
theorem C5_counterexample :
    (agenticChat (fun _ => [Seg.content ("thinking..."),
        Seg.toolCall ⟨none, "t", JVal.obj []⟩])
      (some (fun _ _ => .ok (JVal.str ("ok")))) ⟨[], []⟩ 1).2.1 = "" ∧
    (agenticChat (fun _ => [Seg.content ("thinking..."),
        Seg.toolCall ⟨none, "t", JVal.obj []⟩])
      (some (fun _ _ => .ok (JVal.str ("ok")))) ⟨[], []⟩ 1).2.1 ≠ ("thinking...") ∧
    (agenticChat (fun _ => [Seg.content ("thinking..."),
        Seg.toolCall ⟨none, "t", JVal.obj []⟩])
      (some (fun _ _ => .ok (JVal.str ("ok")))) ⟨[], []⟩ 1).2.2 = 1 ∧
    (agenticChat (fun _ => [Seg.content ("thinking..."),
        Seg.toolCall ⟨none, "t", JVal.obj []⟩])
      (some (fun _ _ => .ok (JVal.str ("ok")))) ⟨[], []⟩ 0).2.2 = 5 :=
  ⟨rfl, by decide, rfl, rfl⟩
